import Mathlib

/-!
Verification of the agtool DSL parser / semantic graph builder
(`src/plugins/readers/txt_reader.py`) and the graph data model
(`src/agtool/struct/graph.py`, `src/agtool/struct/vertex.py`).

The Python code is shallowly embedded: the AST produced by the tatsu
grammar is modelled as a list of `Line`s; the mutable dictionaries of the
single forward pass of `AGTxtReader.read_graph` become explicit
association-list state threaded through pure functions; raised exceptions
become `Except` errors that carry the builder state at the raise point
(Python leaves the shared macros dictionary mutated when an exception
propagates, so the state must travel with the error).

Python dictionaries are modelled as association lists with Python's
semantics: updating an existing key keeps the key's position, inserting a
new key appends at the end, lookup takes the unique binding.
-/

deriving instance DecidableEq for Except

namespace AgTool

/-! ## Python dictionary model -/

/-- Python `k in d` for a dictionary with string keys. -/
def dictMem {α : Type} : List (String × α) → String → Bool
  | [], _ => false
  | p :: rest, k => p.1 == k || dictMem rest k

/-- Python `d[k]` lookup (as an `Option`; a `none` corresponds to `KeyError`). -/
def dictGet {α : Type} : List (String × α) → String → Option α
  | [], _ => none
  | p :: rest, k => if p.1 == k then some p.2 else dictGet rest k

/-- Python `d[k] = v`: update in place (keeping the key's position) when the
key exists, otherwise append the new binding at the end. -/
def dictSet {α : Type} : List (String × α) → String → α → List (String × α)
  | [], k, v => [(k, v)]
  | p :: rest, k, v => if p.1 == k then (k, v) :: rest else p :: dictSet rest k v

/-- Python `d[k] = f(d[k])`-style in-place mutation of the value bound to an
existing key (`d[k].append(...)`, `d[k] += 1`); no effect on a missing key
(all uses are guarded). -/
def dictUpdate {α : Type} : List (String × α) → String → (α → α) →
    List (String × α)
  | [], _, _ => []
  | p :: rest, k, f => if p.1 == k then (p.1, f p.2) :: rest
                       else p :: dictUpdate rest k f

/-- The keys of a dictionary, in their insertion order. -/
def dictKeys {α : Type} (d : List (String × α)) : List String :=
  d.map Prod.fst

/-! ## Python string containment (`t in s`) -/

/-- Does the character list `s` start with `t`? -/
def charsStartWith : List Char → List Char → Bool
  | _, [] => true
  | [], _ :: _ => false
  | c :: cs, d :: ds => c == d && charsStartWith cs ds

/-- Does the character list `s` contain `t` as a contiguous run? -/
def charsHaveSub : List Char → List Char → Bool
  | [], t => t.isEmpty
  | c :: cs, t => charsStartWith (c :: cs) t || charsHaveSub cs t

/-- Python `t in s` substring containment. -/
def strContains (s t : String) : Bool :=
  charsHaveSub s.toList t.toList

/-! ## The parsed AST (output of the tatsu grammar of `AGTxtReader.__GRAMMAR`) -/

/-- tatsu `parseinfo` for one parsed expression: the 0-based source line and
the 0-based character position of the expression. -/
structure ParseInfo where
  line : Nat
  pos : Nat
deriving DecidableEq, Repr

/-- The `ARROW` node: `linkType:('-'|'='|SYMBOL) label:[edge_label] '>'`. -/
structure Arrow where
  linkType : String
  label : Option String
deriving DecidableEq, Repr

/-- One parsed expression, tagged as in the grammar's `expression` rule. -/
inductive Expression where
  | setTypes (typeName : String) (vertexList : List String)
  | setAttributes (key : String) (value : String) (vertexList : List String)
  | setEdges (vertexList1 : List String) (link : Arrow)
      (vertexList2 : List String) (description : Option String)
  | macroDef (symbol : String) (substitution : String)
deriving DecidableEq, Repr

/-- One element of the parsed AST list (`for line in ast`): the expression
plus its `parseinfo` (present for parser-produced nodes; the code guards for
its absence, hence the `Option`). -/
structure Line where
  expression : Expression
  parseinfo : Option ParseInfo
deriving DecidableEq, Repr

/-! ## The graph data model (`src/agtool/struct/vertex.py`, `graph.py`) -/

/-- The `dependency` field of a `VertexEdge`: during construction it is a
vertex *name* string (`nameRef`); after hydration the Python code stores a
reference to the `Vertex` object `known_vertices[name]` — an object
reference into the graph's vertex dictionary, which we model by the key
`name` it was looked up under (`vertexRef`). -/
inductive VertexRef where
  | nameRef (name : String)
  | vertexRef (name : String)
deriving DecidableEq, Repr

/-- The `VertexEdge` class of `vertex.py`. -/
structure VertexEdge where
  dependency : VertexRef
  label : Option String
  group_id : Option Nat
  unique_group_id : Option Nat
  is_conjunction : Bool
deriving DecidableEq, Repr

/-- `VertexEdge.is_recovery`: true iff the label is set and contains `"rec"`. -/
def VertexEdge.is_recovery (e : VertexEdge) : Bool :=
  match e.label with
  | none => false
  | some l => strContains l "rec"

/-- `VertexEdge.is_hidden`: true iff the label is set and contains `"invis"`. -/
def VertexEdge.is_hidden (e : VertexEdge) : Bool :=
  match e.label with
  | none => false
  | some l => strContains l "invis"

/-- The `Vertex` class of `vertex.py`. -/
structure Vertex where
  name : String
  vertex_type : String
  edges : List VertexEdge
  attributes : List (String × String)
deriving DecidableEq, Repr

/-- The `Graph` class of `graph.py`: the dictionary of vertices keyed by
vertex name. -/
structure Graph where
  vertices : List (String × Vertex)
deriving DecidableEq, Repr

/-- `Graph.has_vertices`. -/
def Graph.has_vertices (g : Graph) : Bool :=
  decide (0 < g.vertices.length)

/-- Python `==` between a `Vertex` instance and a `str` dictionary key, as
evaluated by `vertex in self.vertices` in `Graph.add_vertex`. `Vertex`
defines no `__eq__`, so the comparison falls back to the default (identity)
semantics and a `Vertex` object never equals a `str` key. -/
def pyVertexEqKey (_ : Vertex) (_ : String) : Bool := false

/-- `Graph.add_vertex`: the duplicate check `vertex not in self.vertices`
tests the `Vertex` object against the dictionary's string keys. -/
def Graph.add_vertex (g : Graph) (v : Vertex) : Except String Graph :=
  if !(g.vertices.any (fun p => pyVertexEqKey v p.1)) then
    .ok ⟨dictSet g.vertices v.name v⟩
  else
    .error ("Vertex, " ++ v.name ++ ", already exists in the graph.")

/-- `Graph.has_vertex_with_name`. In the case-insensitive branch the source's
generator expression is
`any(vertex_name.lower() == vertex_name.lower() for vertex_name in self.vertices)`:
the comprehension variable shadows the argument, so both sides of the
comparison are the iterated dictionary key. -/
def Graph.has_vertex_with_name (g : Graph) (vertex_name : String)
    (case_insensitive : Bool) : Bool :=
  if !case_insensitive then
    dictMem g.vertices vertex_name
  else
    g.vertices.any (fun p => p.1.toLower == p.1.toLower)

/-! ## The semantic graph builder (`AGTxtReader.read_graph`) -/

/-- The class attribute `AGTxtReader.__DEFAULT_MACROS = {'=': 'rec'}`.
`read_graph` binds its local `macros` variable to this dictionary *without
copying*, so mutations write through to it and persist across invocations. -/
def AGTxtReader_DEFAULT_MACROS : List (String × String) := [("=", "rec")]

/-- The error raised by `AGTxtReader.__handle_missing_vertex` (an
`InvalidModelData`), or a Python `KeyError` from an unguarded dictionary
lookup. -/
inductive BuildError where
  | missingVertex (name : String) (parseinfo : Option ParseInfo)
  | keyError (key : String)
deriving DecidableEq, Repr

/-- The description string `__handle_missing_vertex` passes to
`InvalidModelData`. -/
def missingVertexDescription (name : String) (parseinfo : Option ParseInfo) :
    String :=
  match parseinfo with
  | some pi =>
      "Error on line " ++ toString (pi.line + 1) ++ " (pos. " ++
        toString (pi.pos + 1) ++ ").\n" ++ name ++ " used before declaration."
  | none =>
      "Error whilst processing requested model.\n" ++ name ++
        " used before declaration."

/-- The running state of the single forward pass of `read_graph`. -/
structure BuilderState where
  macros : List (String × String)
  vertexTypes : List (String × String)
  vertexAttributes : List (String × List (String × String))
  vertexEdges : List (String × List VertexEdge)
  groupCounter : List (String × Nat)
  uniqueGroupCounter : Nat
deriving DecidableEq, Repr

/-- The state `read_graph` starts a pass with: every table empty, except
`macros`, which is bound (by reference) to the shared
`AGTxtReader.__DEFAULT_MACROS` dictionary in whatever state previous passes
left it. -/
def initialState (sharedMacros : List (String × String)) : BuilderState :=
  { macros := sharedMacros
    vertexTypes := []
    vertexAttributes := []
    vertexEdges := []
    groupCounter := []
    uniqueGroupCounter := 0 }

/-- The nested helper `assign_vertex_attribute` of `read_graph`. -/
def assignVertexAttribute (va : List (String × List (String × String)))
    (assign_to key value : String) : List (String × List (String × String)) :=
  let va := if !dictMem va assign_to then va ++ [(assign_to, [])] else va
  dictUpdate va assign_to (fun attrs => dictSet attrs key value)

/-- The `set_types` loop: `for vertex_name in expression.vertexList:
vertex_types[vertex_name] = expression.type`. -/
def setTypesAll (vt : List (String × String)) (typeName : String) :
    List String → List (String × String)
  | [] => vt
  | n :: rest => setTypesAll (dictSet vt n typeName) typeName rest

/-- Arrow label resolution, as performed (afresh, with identical outcome) in
each iteration of the inner edge loop of `read_graph`: an `=` arrow is
rewritten to `rec` (appending any explicit label with its `=`s stripped);
then an arrow type other than `-` and `=` that is a key of `macros` takes
the macro substitution. -/
def resolveArrowLabel (macros : List (String × String)) (link : Arrow) :
    Option String :=
  let label :=
    if link.linkType == "=" then
      match link.label with
      | none => some "rec"
      | some l => some ("rec," ++ l.replace "=" "")
    else link.label
  if link.linkType != "-" && link.linkType != "=" && dictMem macros link.linkType
  then dictGet macros link.linkType
  else label

/-- The body of the first `set_edges` loop, for one RHS vertex: check the
vertex is declared, assign the optional description attribute, and
initialise its `vertex_edges` and `group_counter` entries. -/
def initRhsStep (line : Line) (description : Option String)
    (s : BuilderState) (vertex_name : String) :
    Except (BuilderState × BuildError) BuilderState :=
  if !dictMem s.vertexTypes vertex_name then
    .error (s, .missingVertex vertex_name line.parseinfo)
  else
    let s1 := match description with
      | some d =>
          { s with
            vertexAttributes :=
              assignVertexAttribute s.vertexAttributes vertex_name
                "description" d }
      | none => s
    let s2 := if !dictMem s1.vertexEdges vertex_name then
        { s1 with vertexEdges := s1.vertexEdges ++ [(vertex_name, [])] }
      else s1
    let s3 := if !dictMem s2.groupCounter vertex_name then
        { s2 with groupCounter := s2.groupCounter ++ [(vertex_name, 0)] }
      else s2
    .ok s3

/-- The first `set_edges` loop over the RHS (`expression.vertexList2`). -/
def initRhs (line : Line) (description : Option String) :
    BuilderState → List String → Except (BuilderState × BuildError) BuilderState
  | s, [] => .ok s
  | s, vertex_name :: rest =>
    match initRhsStep line description s vertex_name with
    | .error e => .error e
    | .ok s' => initRhs line description s' rest

/-- Append an edge to `vertex_edges[sink]` (the entry is known to exist). -/
def appendEdgeAt (tbl : List (String × List VertexEdge)) (sink : String)
    (e : VertexEdge) : List (String × List VertexEdge) :=
  dictUpdate tbl sink (fun es => es ++ [e])

/-- The inner `set_edges` loop over the RHS for one LHS vertex `src`:
resolve the arrow label and append a `VertexEdge` to each sink's list, with
the sink's current `group_counter` value and the global
`unique_group_counter`. A missing dictionary entry is a Python `KeyError`. -/
def addEdgesToSinks (link : Arrow) (isConj : Bool) (src : String) :
    BuilderState → List String → Except (BuilderState × BuildError) BuilderState
  | s, [] => .ok s
  | s, sink :: rest =>
    let label := resolveArrowLabel s.macros link
    match dictGet s.groupCounter sink with
    | none => .error (s, .keyError sink)
    | some gid =>
      if dictMem s.vertexEdges sink then
        addEdgesToSinks link isConj src
          { s with
            vertexEdges :=
              appendEdgeAt s.vertexEdges sink
                { dependency := .nameRef src,
                  label := label,
                  group_id := some gid,
                  unique_group_id := some s.uniqueGroupCounter,
                  is_conjunction := isConj } } rest
      else .error (s, .keyError sink)

/-- The outer `set_edges` loop over the LHS (`expression.vertexList1`):
check the vertex is declared, then create an edge into every RHS sink. -/
def processSources (line : Line) (link : Arrow) (isConj : Bool)
    (rhs : List String) :
    BuilderState → List String → Except (BuilderState × BuildError) BuilderState
  | s, [] => .ok s
  | s, src :: rest =>
    if !dictMem s.vertexTypes src then
      .error (s, .missingVertex src line.parseinfo)
    else
      match addEdgesToSinks link isConj src s rhs with
      | .error e => .error e
      | .ok s' => processSources line link isConj rhs s' rest

/-- The final `set_edges` loop: `group_counter[vertex_name] += 1` for each
RHS vertex. -/
def incrementGroupCounters :
    BuilderState → List String → Except (BuilderState × BuildError) BuilderState
  | s, [] => .ok s
  | s, vertex_name :: rest =>
    if dictMem s.groupCounter vertex_name then
      incrementGroupCounters
        { s with groupCounter :=
            dictUpdate s.groupCounter vertex_name (fun n => n + 1) } rest
    else .error (s, .keyError vertex_name)

/-- The whole `set_edges` case of the expression dispatch. -/
def processSetEdges (line : Line) (vertexList1 : List String) (link : Arrow)
    (vertexList2 : List String) (description : Option String)
    (s : BuilderState) : Except (BuilderState × BuildError) BuilderState :=
  let isConj := decide (1 < vertexList1.length)
  match initRhs line description s vertexList2 with
  | .error e => .error e
  | .ok s =>
    match processSources line link isConj vertexList2 s vertexList1 with
    | .error e => .error e
    | .ok s =>
      let s := { s with uniqueGroupCounter := s.uniqueGroupCounter + 1 }
      incrementGroupCounters s vertexList2

/-- The `set_attributes` case: each listed vertex must be declared, then the
key/value pair is assigned. -/
def processSetAttributes (line : Line) (key value : String) :
    BuilderState → List String → Except (BuilderState × BuildError) BuilderState
  | s, [] => .ok s
  | s, vertex_name :: rest =>
    if !dictMem s.vertexTypes vertex_name then
      .error (s, .missingVertex vertex_name line.parseinfo)
    else
      processSetAttributes line key value
        { s with vertexAttributes :=
            assignVertexAttribute s.vertexAttributes vertex_name key value }
        rest

/-- One iteration of `for line in ast: match line.expression_type`. -/
def processLine (s : BuilderState) (line : Line) :
    Except (BuilderState × BuildError) BuilderState :=
  match line.expression with
  | .setTypes typeName vertexList =>
      .ok { s with vertexTypes := setTypesAll s.vertexTypes typeName vertexList }
  | .setEdges vertexList1 link vertexList2 description =>
      processSetEdges line vertexList1 link vertexList2 description s
  | .setAttributes key value vertexList =>
      processSetAttributes line key value s vertexList
  | .macroDef symbol substitution =>
      .ok { s with macros := dictSet s.macros symbol substitution }

/-- The whole forward pass over the parsed lines. -/
def processLines : BuilderState → List Line →
    Except (BuilderState × BuildError) BuilderState
  | s, [] => .ok s
  | s, l :: rest =>
    match processLine s l with
    | .error e => .error e
    | .ok s' => processLines s' rest

/-- Graph materialization: `vertex_types` is the source of truth for the set
of vertices; each gets its collected attributes and (pending) edges. -/
def buildKnownVertices (s : BuilderState) : List (String × Vertex) :=
  s.vertexTypes.map (fun p =>
    ( p.1
    , { name := p.1,
        vertex_type := p.2,
        edges := (dictGet s.vertexEdges p.1).getD [],
        attributes := (dictGet s.vertexAttributes p.1).getD [] } ))

/-- Hydration of one edge: a `dependency` that is still a name string is
replaced by (a reference to) `known_vertices[name]`; a missing key is a
Python `KeyError`. -/
def hydrateEdge (known : List (String × Vertex)) (e : VertexEdge) :
    Except BuildError VertexEdge :=
  match e.dependency with
  | .nameRef n =>
    match dictGet known n with
    | some _ => .ok { e with dependency := .vertexRef n }
    | none => .error (.keyError n)
  | .vertexRef _ => .ok e

/-- Hydration of a vertex's edge list. -/
def hydrateEdges (known : List (String × Vertex)) :
    List VertexEdge → Except BuildError (List VertexEdge)
  | [] => .ok []
  | e :: rest =>
    match hydrateEdge known e with
    | .error err => .error err
    | .ok e' =>
      match hydrateEdges known rest with
      | .error err => .error err
      | .ok rest' => .ok (e' :: rest')

/-- The hydration pass over `known_vertices.items()`. -/
def hydrateVertexList (known : List (String × Vertex)) :
    List (String × Vertex) → Except BuildError (List (String × Vertex))
  | [] => .ok []
  | (n, v) :: rest =>
    match hydrateEdges known v.edges with
    | .error err => .error err
    | .ok es =>
      match hydrateVertexList known rest with
      | .error err => .error err
      | .ok rest' => .ok ((n, { v with edges := es }) :: rest')

/-- `AGTxtReader.read_graph`, from the parsed AST on (the tatsu parse of the
raw text is not embedded; an AST of `none` is an empty — no expressions —
document). The first component of the result is the final contents of the
shared `AGTxtReader.__DEFAULT_MACROS` dictionary, which the pass mutates
through its `macros` alias. -/
def read_graph (sharedMacros : List (String × String))
    (ast : Option (List Line)) :
    List (String × String) × Except (BuilderState × BuildError) (Option Graph) :=
  match ast with
  | none => (sharedMacros, .ok none)
  | some lines =>
    match processLines (initialState sharedMacros) lines with
    | .error (s, e) => (s.macros, .error (s, e))
    | .ok s =>
      let known := buildKnownVertices s
      match hydrateVertexList known known with
      | .error e => (s.macros, .error (s, e))
      | .ok hydrated => (s.macros, .ok (some ⟨hydrated⟩))

/-! ## Vocabulary for stating the claims -/

/-- Is this parsed line a `set_edges` statement? -/
def isSetEdgesLine (l : Line) : Bool :=
  match l.expression with
  | .setEdges _ _ _ _ => true
  | _ => false

/-- The RHS vertex list of a line (empty for non-`set_edges` lines). -/
def rhsOf (l : Line) : List String :=
  match l.expression with
  | .setEdges _ _ vertexList2 _ => vertexList2
  | _ => []

/-- The number of `set_edges` statements in a document prefix. -/
def countSE (lines : List Line) : Nat :=
  (lines.filter isSetEdgesLine).length

/-- The number of occurrences of sink `r` in the RHS lists of a document
prefix. -/
def rhsOcc (lines : List Line) (r : String) : Nat :=
  (lines.map (fun l => (rhsOf l).count r)).sum

/-- The pending edge list of sink `r` in a builder state. -/
def edgesAt (s : BuilderState) (r : String) : List VertexEdge :=
  (dictGet s.vertexEdges r).getD []

/-- The group counter of sink `r` in a builder state. -/
def gcVal (s : BuilderState) (r : String) : Nat :=
  (dictGet s.groupCounter r).getD 0

/-- An edge with its label forgotten (the only edge component that the
shared macros table can influence). -/
def eraseEdgeLabel (e : VertexEdge) : VertexEdge :=
  { e with label := none }

/-- A `vertex_edges` table with every label forgotten. -/
def eraseTbl (t : List (String × List VertexEdge)) :
    List (String × List VertexEdge) :=
  t.map (fun p => (p.1, p.2.map eraseEdgeLabel))

/-- The vertex names one line references in an edge or attribute statement. -/
def refNamesOf (l : Line) : List String :=
  match l.expression with
  | .setEdges vertexList1 _ vertexList2 _ => vertexList1 ++ vertexList2
  | .setAttributes _ _ vertexList => vertexList
  | _ => []

/-- Every vertex name appearing in an edge (`set_edges`) or attribute
(`set_attributes`) statement of the document. -/
def edgeOrAttrNames : List Line → List String
  | [] => []
  | l :: rest => refNamesOf l ++ edgeOrAttrNames rest

/-- The builder-state invariant maintained by the forward pass: every
pending edge carries a `unique_group_id` strictly below the global counter,
a `group_id` strictly below its sink's group counter, and a still-unhydrated
(name string) dependency. -/
def stateInv (s : BuilderState) : Prop :=
  ∀ r e, e ∈ edgesAt s r →
    (∃ u, e.unique_group_id = some u ∧ u < s.uniqueGroupCounter) ∧
    (∃ gv, e.group_id = some gv ∧ gv < gcVal s r) ∧
    (∃ n, e.dependency = .nameRef n)

/-- The `vertex_types` table that the `set_types` statements of a document
build up (the other statement kinds never touch it). -/
def typesTableOf (lines : List Line) : List (String × String) :=
  lines.foldl
    (fun vt l =>
      match l.expression with
      | .setTypes typeName vertexList => setTypesAll vt typeName vertexList
      | _ => vt) []

/-- The grammar's `SYMBOL` rule for macro symbols: exactly one character,
not `>`, not alphanumeric, not `-`, not `=`. -/
def isValidMacroSymbol (s : String) : Bool :=
  match s.toList with
  | [c] => !(c == '>') && !c.isAlphanum && !(c == '-') && !(c == '=')
  | _ => false

/-- Every key of a macros table is the default `=` or a grammar-valid macro
symbol. -/
def macroKeysValid (m : List (String × String)) : Bool :=
  m.all (fun p => p.1 == "=" || isValidMacroSymbol p.1)

/-- Every macro statement of the document uses a grammar-valid symbol (true
of every document the tatsu grammar accepts). -/
def linesMacroSymbolsValid (lines : List Line) : Bool :=
  lines.all (fun l =>
    match l.expression with
    | .macroDef symbol _ => isValidMacroSymbol symbol
    | _ => true)

/-- The edge a `set_edges` statement appends for LHS vertex `src` (the
`VertexEdge(...)` constructor call of the inner loop, as a function of the
state components it reads). -/
def stmtEdge (macros : List (String × String)) (link : Arrow)
    (gid uid : Nat) (isConj : Bool) (src : String) : VertexEdge :=
  { dependency := .nameRef src
    label := resolveArrowLabel macros link
    group_id := some gid
    unique_group_id := some uid
    is_conjunction := isConj }

/-- Did an `Except` computation succeed? -/
def exceptIsOk {ε α : Type} : Except ε α → Bool
  | .ok _ => true
  | .error _ => false

/-- Two builder states that agree on everything except the macros table and
the edge labels (the only components the shared macros dictionary can
influence). -/
def simRel (s s' : BuilderState) : Prop :=
  s.vertexTypes = s'.vertexTypes ∧
  s.vertexAttributes = s'.vertexAttributes ∧
  eraseTbl s.vertexEdges = eraseTbl s'.vertexEdges ∧
  s.groupCounter = s'.groupCounter ∧
  s.uniqueGroupCounter = s'.uniqueGroupCounter

/-! ## Concrete documents (ASTs of the spec's concrete scenarios) -/

/-- The AST of `x -> y` (no prior `set_types`). -/
def xyDoc : List Line :=
  [⟨.setEdges ["x"] ⟨"-", none⟩ ["y"] none, some ⟨0, 0⟩⟩]

/-- The AST of `@~:fun` (a document consisting of one macro definition). -/
def macroOnlyDoc : List Line :=
  [⟨.macroDef "~" "fun", some ⟨0, 0⟩⟩]

/-- The AST of `device: p`, `password: q`, `q ~> p`. -/
def tildeDoc : List Line :=
  [ ⟨.setTypes "device" ["p"], some ⟨0, 0⟩⟩
  , ⟨.setTypes "password" ["q"], some ⟨1, 10⟩⟩
  , ⟨.setEdges ["q"] ⟨"~", none⟩ ["p"] none, some ⟨2, 22⟩⟩ ]

/-- The AST of a document with a single `set_types` line, `device: phone`. -/
def typesOnlyDoc : List Line :=
  [⟨.setTypes "device" ["phone"], some ⟨0, 0⟩⟩]

/-- The AST of concrete scenario 1: `device: phone`, `password: pin`,
`pin -> phone`. -/
def scenario1Doc : List Line :=
  [ ⟨.setTypes "device" ["phone"], some ⟨0, 0⟩⟩
  , ⟨.setTypes "password" ["pin"], some ⟨1, 14⟩⟩
  , ⟨.setEdges ["pin"] ⟨"-", none⟩ ["phone"] none, some ⟨2, 28⟩⟩ ]

/-- The graph scenario 1 builds. -/
def scenario1Graph : Graph :=
  ⟨[ ("phone",
      { name := "phone", vertex_type := "device",
        edges := [{ dependency := .vertexRef "pin", label := none,
                    group_id := some 0, unique_group_id := some 0,
                    is_conjunction := false }],
        attributes := [] })
   , ("pin",
      { name := "pin", vertex_type := "password", edges := [],
        attributes := [] }) ]⟩

/-- The AST of concrete scenario 2 followed by one more edge statement:
`password: a, b`, `device: c`, `a, b -> c`, `a -> c`. -/
def scenario2Doc : List Line :=
  [ ⟨.setTypes "password" ["a", "b"], some ⟨0, 0⟩⟩
  , ⟨.setTypes "device" ["c"], some ⟨1, 15⟩⟩
  , ⟨.setEdges ["a", "b"] ⟨"-", none⟩ ["c"] none, some ⟨2, 25⟩⟩
  , ⟨.setEdges ["a"] ⟨"-", none⟩ ["c"] none, some ⟨3, 35⟩⟩ ]

/-- The builder state after processing `scenario2Doc`. -/
def scenario2Final : BuilderState :=
  { macros := [("=", "rec")]
    vertexTypes := [("a", "password"), ("b", "password"), ("c", "device")]
    vertexAttributes := []
    vertexEdges :=
      [("c",
        [ { dependency := .nameRef "a", label := none, group_id := some 0,
            unique_group_id := some 0, is_conjunction := true }
        , { dependency := .nameRef "b", label := none, group_id := some 0,
            unique_group_id := some 0, is_conjunction := true }
        , { dependency := .nameRef "a", label := none, group_id := some 1,
            unique_group_id := some 1, is_conjunction := false } ])]
    groupCounter := [("c", 2)]
    uniqueGroupCounter := 2 }

/-- The AST of `device: phone1`, `password: pin`, `pin = > phone1` (an `=`
arrow with no explicit label). -/
def recArrowDoc : List Line :=
  [ ⟨.setTypes "device" ["phone1"], some ⟨0, 0⟩⟩
  , ⟨.setTypes "password" ["pin"], some ⟨1, 15⟩⟩
  , ⟨.setEdges ["pin"] ⟨"=", none⟩ ["phone1"] none, some ⟨2, 30⟩⟩ ]

/-- The builder state after processing `recArrowDoc`. -/
def recArrowFinal : BuilderState :=
  { macros := [("=", "rec")]
    vertexTypes := [("phone1", "device"), ("pin", "password")]
    vertexAttributes := []
    vertexEdges :=
      [("phone1",
        [ { dependency := .nameRef "pin", label := some "rec",
            group_id := some 0, unique_group_id := some 0,
            is_conjunction := false } ])]
    groupCounter := [("phone1", 1)]
    uniqueGroupCounter := 1 }

/-! ## Dictionary lemmas -/

theorem dictMem_iff_get_isSome {α : Type} (d : List (String × α)) (k : String) :
    dictMem d k = (dictGet d k).isSome := by
  induction d with
  | nil => rfl
  | cons p rest ih =>
    by_cases h : p.1 = k
    · simp [dictMem, dictGet, h]
    · simp [dictMem, dictGet, h, ih]

theorem dictGet_set_self {α : Type} (d : List (String × α)) (k : String)
    (v : α) : dictGet (dictSet d k v) k = some v := by
  induction d with
  | nil => simp [dictSet, dictGet]
  | cons p rest ih =>
    by_cases h : p.1 = k
    · simp [dictSet, dictGet, h]
    · simp [dictSet, dictGet, h, ih]

theorem dictGet_set_ne {α : Type} (d : List (String × α)) (k : String)
    (v : α) (r : String) (hne : r ≠ k) :
    dictGet (dictSet d k v) r = dictGet d r := by
  have hkr : ¬(k = r) := fun hc => hne hc.symm
  induction d with
  | nil => simp [dictSet, dictGet, hkr]
  | cons p rest ih =>
    by_cases h : p.1 = k
    · have hb : (p.1 == k) = true := by simp [h]
      have hpr : ¬(p.1 = r) := by rw [h]; exact hkr
      simp only [dictSet, hb, if_true]
      simp [dictGet, hkr, hpr]
    · have hb : (p.1 == k) = false := by simp [h]
      simp only [dictSet, hb, Bool.false_eq_true, if_false]
      simp only [dictGet]
      by_cases hpr : p.1 = r
      · simp [hpr]
      · simp [hpr, ih]

theorem dictGet_update {α : Type} (d : List (String × α)) (k : String)
    (f : α → α) (r : String) :
    dictGet (dictUpdate d k f) r =
      if r = k then (dictGet d r).map f else dictGet d r := by
  induction d with
  | nil => by_cases h : r = k <;> simp [dictUpdate, dictGet, h]
  | cons p rest ih =>
    by_cases hpk : p.1 = k
    · by_cases hrk : r = k
      · subst hrk; simp [dictUpdate, dictGet, hpk]
      · have hkr : ¬(k = r) := fun hc => hrk hc.symm
        have hpr : ¬(p.1 = r) := fun hc => hrk (by rw [← hc, hpk])
        simp [dictUpdate, dictGet, hpk, hpr, hrk, hkr]
    · by_cases hpr : p.1 = r
      · have hrk : ¬(r = k) := fun hc => hpk (by rw [hpr, hc])
        simp [dictUpdate, dictGet, hpk, hpr, hrk]
      · simp [dictUpdate, dictGet, hpk, hpr, ih]

theorem dictGet_append_single {α : Type} (d : List (String × α)) (k : String)
    (v : α) (r : String) :
    dictGet (d ++ [(k, v)]) r =
      match dictGet d r with
      | some x => some x
      | none => if k = r then some v else none := by
  induction d with
  | nil =>
    by_cases h : k = r
    · simp [dictGet, h]
    · simp [dictGet, h]
  | cons p rest ih =>
    by_cases hpr : p.1 = r
    · simp [dictGet, hpr]
    · have hb : (p.1 == r) = false := by simp [hpr]
      simp only [List.cons_append, dictGet, hb, Bool.false_eq_true, if_false]
      exact ih

theorem dictGet_mem {α : Type} {d : List (String × α)} {k : String} {v : α}
    (h : dictGet d k = some v) : (k, v) ∈ d := by
  induction d with
  | nil => simp [dictGet] at h
  | cons p rest ih =>
    simp only [dictGet] at h
    by_cases hpk : p.1 = k
    · rw [if_pos (by simp [hpk])] at h
      cases p with
      | mk a b =>
        simp only [Option.some.injEq] at h
        simp only at hpk
        subst hpk
        subst h
        exact List.mem_cons_self _ _
    · rw [if_neg (by simp [hpk])] at h
      exact List.mem_cons_of_mem _ (ih h)

theorem dictMem_congr_keys {α β : Type} {d : List (String × α)}
    {d' : List (String × β)} (h : dictKeys d = dictKeys d') (k : String) :
    dictMem d k = dictMem d' k := by
  induction d generalizing d' with
  | nil =>
    cases d' with
    | nil => rfl
    | cons q r => simp [dictKeys] at h
  | cons p rest ih =>
    cases d' with
    | nil => simp [dictKeys] at h
    | cons q r =>
      simp only [dictKeys, List.map_cons, List.cons.injEq] at h
      simp only [dictMem, h.1]
      rw [ih (show dictKeys rest = dictKeys r from by simpa [dictKeys] using h.2)]

theorem dictKeys_update {α : Type} (d : List (String × α)) (k : String)
    (f : α → α) : dictKeys (dictUpdate d k f) = dictKeys d := by
  induction d with
  | nil => rfl
  | cons p rest ih =>
    by_cases h : p.1 = k
    · have hb : (p.1 == k) = true := by simp [h]
      simp [dictUpdate, dictKeys, hb]
    · have hb : (p.1 == k) = false := by simp [h]
      simp only [dictUpdate, hb, Bool.false_eq_true, if_false]
      simp only [dictKeys, List.map_cons] at ih ⊢
      rw [ih]

theorem dictMem_set {α : Type} (d : List (String × α)) (k : String) (v : α)
    (r : String) (h : dictMem d r = true) :
    dictMem (dictSet d k v) r = true := by
  induction d with
  | nil => simp [dictMem] at h
  | cons p rest ih =>
    simp only [dictMem, Bool.or_eq_true] at h
    by_cases hpk : p.1 = k
    · have hb : (p.1 == k) = true := by simp [hpk]
      simp only [dictSet, hb, if_true, dictMem, Bool.or_eq_true]
      rcases h with h | h
      · left; rw [← hpk]; exact h
      · right; exact h
    · have hb : (p.1 == k) = false := by simp [hpk]
      simp only [dictSet, hb, Bool.false_eq_true, if_false, dictMem,
        Bool.or_eq_true]
      rcases h with h | h
      · left; exact h
      · right; exact ih h

theorem dictMem_set_self {α : Type} (d : List (String × α)) (k : String)
    (v : α) : dictMem (dictSet d k v) k = true := by
  have := dictGet_set_self d k v
  rw [dictMem_iff_get_isSome, this]
  rfl

theorem dictMem_append_single {α : Type} (d : List (String × α)) (k : String)
    (v : α) (r : String) :
    dictMem (d ++ [(k, v)]) r = (dictMem d r || (k == r)) := by
  induction d with
  | nil => simp [dictMem]
  | cons p rest ih =>
    simp [dictMem, ih, Bool.or_assoc]

/-! ## Builder effect lemmas -/

theorem getD_append_nil (ve : List (String × List VertexEdge)) (r0 r : String) :
    ((dictGet (ve ++ [(r0, ([] : List VertexEdge))]) r).getD []) =
      ((dictGet ve r).getD []) := by
  rw [dictGet_append_single]
  cases h : dictGet ve r with
  | some x => rfl
  | none => by_cases h0 : r0 = r <;> simp [h0]

theorem getD_append_zero (gc : List (String × Nat)) (r0 r : String) :
    ((dictGet (gc ++ [(r0, 0)]) r).getD 0) = ((dictGet gc r).getD 0) := by
  rw [dictGet_append_single]
  cases h : dictGet gc r with
  | some x => rfl
  | none => by_cases h0 : r0 = r <;> simp [h0]

theorem initRhsStep_eff {line : Line} {desc : Option String}
    {s t : BuilderState} {r0 : String}
    (h : initRhsStep line desc s r0 = .ok t) :
    t.macros = s.macros ∧
    t.vertexTypes = s.vertexTypes ∧
    t.uniqueGroupCounter = s.uniqueGroupCounter ∧
    (∀ r, edgesAt t r = edgesAt s r) ∧
    (∀ r, gcVal t r = gcVal s r) ∧
    (∀ r, dictMem s.vertexEdges r = true → dictMem t.vertexEdges r = true) ∧
    (∀ r, dictMem s.groupCounter r = true → dictMem t.groupCounter r = true) ∧
    dictMem t.vertexEdges r0 = true ∧
    dictMem t.groupCounter r0 = true ∧
    dictMem s.vertexTypes r0 = true := by
  by_cases hty : dictMem s.vertexTypes r0 = true
  · -- the declared-check passes; compute the built state
    rw [initRhsStep.eq_def, if_neg (by simp [hty])] at h
    simp only [Except.ok.injEq] at h
    subst h
    -- name the intermediate states
    refine ?_
    -- s1 : the state after the optional description assignment
    set s1 : BuilderState := (match desc with
      | some d =>
          { s with
            vertexAttributes :=
              assignVertexAttribute s.vertexAttributes r0 "description" d }
      | none => s) with hs1
    have hs1m : s1.macros = s.macros ∧ s1.vertexTypes = s.vertexTypes ∧
        s1.uniqueGroupCounter = s.uniqueGroupCounter ∧
        s1.vertexEdges = s.vertexEdges ∧ s1.groupCounter = s.groupCounter := by
      cases desc <;> simp [hs1]
    obtain ⟨h1m, h1t, h1u, h1e, h1g⟩ := hs1m
    set s2 : BuilderState := (if !dictMem s1.vertexEdges r0 then
        { s1 with vertexEdges := s1.vertexEdges ++ [(r0, [])] }
      else s1) with hs2
    have hs2m : s2.macros = s1.macros ∧ s2.vertexTypes = s1.vertexTypes ∧
        s2.uniqueGroupCounter = s1.uniqueGroupCounter ∧
        s2.groupCounter = s1.groupCounter ∧
        (∀ r, edgesAt s2 r = edgesAt s1 r) ∧
        (∀ r, dictMem s1.vertexEdges r = true →
            dictMem s2.vertexEdges r = true) ∧
        dictMem s2.vertexEdges r0 = true := by
      by_cases hm : dictMem s1.vertexEdges r0 = true
      · have h2 : s2 = s1 := by rw [hs2, hm]; rfl
        rw [h2]
        exact ⟨rfl, rfl, rfl, rfl, fun r => rfl, fun r hr => hr, hm⟩
      · have hm' : dictMem s1.vertexEdges r0 = false := by
          cases hmm : dictMem s1.vertexEdges r0 with
          | true => exact absurd hmm hm
          | false => rfl
        have h2 : s2 = { s1 with vertexEdges := s1.vertexEdges ++ [(r0, [])] } := by
          rw [hs2, hm']; rfl
        rw [h2]
        refine ⟨rfl, rfl, rfl, rfl, fun r => ?_, fun r hr => ?_, ?_⟩
        · exact getD_append_nil _ _ _
        · show dictMem (s1.vertexEdges ++ [(r0, [])]) r = true
          rw [dictMem_append_single]; simp [hr]
        · show dictMem (s1.vertexEdges ++ [(r0, [])]) r0 = true
          rw [dictMem_append_single]; simp
    obtain ⟨h2m, h2t, h2u, h2g, h2e, h2em, h2e0⟩ := hs2m
    set s3 : BuilderState := (if !dictMem s2.groupCounter r0 then
        { s2 with groupCounter := s2.groupCounter ++ [(r0, 0)] }
      else s2) with hs3
    have hs3m : s3.macros = s2.macros ∧ s3.vertexTypes = s2.vertexTypes ∧
        s3.uniqueGroupCounter = s2.uniqueGroupCounter ∧
        s3.vertexEdges = s2.vertexEdges ∧
        (∀ r, gcVal s3 r = gcVal s2 r) ∧
        (∀ r, dictMem s2.groupCounter r = true →
            dictMem s3.groupCounter r = true) ∧
        dictMem s3.groupCounter r0 = true := by
      by_cases hm : dictMem s2.groupCounter r0 = true
      · have h3 : s3 = s2 := by rw [hs3, hm]; rfl
        rw [h3]
        exact ⟨rfl, rfl, rfl, rfl, fun r => rfl, fun r hr => hr, hm⟩
      · have hm' : dictMem s2.groupCounter r0 = false := by
          cases hmm : dictMem s2.groupCounter r0 with
          | true => exact absurd hmm hm
          | false => rfl
        have h3 : s3 = { s2 with groupCounter := s2.groupCounter ++ [(r0, 0)] } := by
          rw [hs3, hm']; rfl
        rw [h3]
        refine ⟨rfl, rfl, rfl, rfl, fun r => ?_, fun r hr => ?_, ?_⟩
        · exact getD_append_zero _ _ _
        · show dictMem (s2.groupCounter ++ [(r0, 0)]) r = true
          rw [dictMem_append_single]; simp [hr]
        · show dictMem (s2.groupCounter ++ [(r0, 0)]) r0 = true
          rw [dictMem_append_single]; simp
    obtain ⟨h3m, h3t, h3u, h3e, h3g, h3gm, h3g0⟩ := hs3m
    refine ⟨h3m.trans (h2m.trans h1m), h3t.trans (h2t.trans h1t),
        h3u.trans (h2u.trans h1u), ?_, ?_, ?_, ?_, ?_, ?_, hty⟩
    · intro r
      have : edgesAt s3 r = edgesAt s2 r := by
        unfold edgesAt; rw [h3e]
      rw [this, h2e r]
      unfold edgesAt; rw [h1e]
    · intro r
      have h2gc : gcVal s2 r = gcVal s1 r := by
        unfold gcVal; rw [h2g]
      rw [h3g r, h2gc]
      unfold gcVal; rw [h1g]
    · intro r hr
      have : dictMem s1.vertexEdges r = true := by rw [h1e]; exact hr
      have := h2em r this
      rw [h3e]; exact this
    · intro r hr
      have : dictMem s1.groupCounter r = true := by rw [h1g]; exact hr
      have h2' : dictMem s2.groupCounter r = true := by rw [h2g]; exact this
      exact h3gm r h2'
    · rw [h3e]; exact h2e0
    · exact h3g0
  · rw [initRhsStep.eq_def, if_pos (by simp [hty])] at h
    exact absurd h (by simp)

theorem initRhs_eff {line : Line} {desc : Option String} :
    ∀ {R : List String} {s t : BuilderState},
    initRhs line desc s R = .ok t →
    t.macros = s.macros ∧
    t.vertexTypes = s.vertexTypes ∧
    t.uniqueGroupCounter = s.uniqueGroupCounter ∧
    (∀ r, edgesAt t r = edgesAt s r) ∧
    (∀ r, gcVal t r = gcVal s r) ∧
    (∀ r, dictMem s.vertexEdges r = true → dictMem t.vertexEdges r = true) ∧
    (∀ r, dictMem s.groupCounter r = true → dictMem t.groupCounter r = true) ∧
    (∀ r ∈ R, dictMem t.vertexEdges r = true) ∧
    (∀ r ∈ R, dictMem t.groupCounter r = true) ∧
    (∀ r ∈ R, dictMem s.vertexTypes r = true) := by
  intro R
  induction R with
  | nil =>
    intro s t h
    simp only [initRhs, Except.ok.injEq] at h
    subst h
    exact ⟨rfl, rfl, rfl, fun r => rfl, fun r => rfl, fun r hr => hr,
      fun r hr => hr, by simp, by simp, by simp⟩
  | cons r0 rest ih =>
    intro s t h
    simp only [initRhs] at h
    cases hstep : initRhsStep line desc s r0 with
    | error e => rw [hstep] at h; exact absurd h (by simp)
    | ok s' =>
      rw [hstep] at h
      obtain ⟨m1, t1, u1, e1, g1, em1, gm1, e01, g01, ty1⟩ :=
        initRhsStep_eff hstep
      obtain ⟨m2, t2, u2, e2, g2, em2, gm2, eR2, gR2, tyR2⟩ := ih h
      refine ⟨m2.trans m1, t2.trans t1, u2.trans u1,
        fun r => (e2 r).trans (e1 r), fun r => (g2 r).trans (g1 r),
        fun r hr => em2 r (em1 r hr), fun r hr => gm2 r (gm1 r hr),
        ?_, ?_, ?_⟩
      · intro r hr
        rcases List.mem_cons.mp hr with hr | hr
        · subst hr; exact em2 r e01
        · exact eR2 r hr
      · intro r hr
        rcases List.mem_cons.mp hr with hr | hr
        · subst hr; exact gm2 r g01
        · exact gR2 r hr
      · intro r hr
        rcases List.mem_cons.mp hr with hr | hr
        · subst hr; exact ty1
        · rw [← t1]; exact tyR2 r hr

theorem addEdgesToSinks_eff {link : Arrow} {isConj : Bool} {src : String} :
    ∀ {sinks : List String} {s t : BuilderState},
    addEdgesToSinks link isConj src s sinks = .ok t →
    t.macros = s.macros ∧
    t.vertexTypes = s.vertexTypes ∧
    t.vertexAttributes = s.vertexAttributes ∧
    t.groupCounter = s.groupCounter ∧
    t.uniqueGroupCounter = s.uniqueGroupCounter ∧
    dictKeys t.vertexEdges = dictKeys s.vertexEdges ∧
    (∀ r, edgesAt t r = edgesAt s r ++
      List.replicate (sinks.count r)
        (stmtEdge s.macros link (gcVal s r) s.uniqueGroupCounter isConj src)) := by
  intro sinks
  induction sinks with
  | nil =>
    intro s t h
    simp only [addEdgesToSinks, Except.ok.injEq] at h
    subst h
    exact ⟨rfl, rfl, rfl, rfl, rfl, rfl, fun r => by simp⟩
  | cons sink rest ih =>
    intro s t h
    rw [addEdgesToSinks] at h
    cases hg : dictGet s.groupCounter sink with
    | none => rw [hg] at h; exact absurd h (by simp)
    | some gid =>
      rw [hg] at h
      dsimp only [] at h
      by_cases hm : dictMem s.vertexEdges sink = true
      · rw [if_pos hm] at h
        obtain ⟨m1, t1, a1, g1, u1, k1, e1⟩ := ih h
        have hsome : (dictGet s.vertexEdges sink).isSome = true := by
          rw [← dictMem_iff_get_isSome]; exact hm
        obtain ⟨l0, hl0⟩ := Option.isSome_iff_exists.mp hsome
        have hgc : gcVal s sink = gid := by simp [gcVal, hg]
        refine ⟨m1, t1, a1, g1, u1,
          k1.trans (by simp [appendEdgeAt, dictKeys_update]), fun r => ?_⟩
        rw [e1 r]
        by_cases hr : r = sink
        · subst hr
          have hes : edgesAt { s with
              vertexEdges := appendEdgeAt s.vertexEdges r
                { dependency := .nameRef src,
                  label := resolveArrowLabel s.macros link,
                  group_id := some gid,
                  unique_group_id := some s.uniqueGroupCounter,
                  is_conjunction := isConj } } r
              = edgesAt s r ++
                [stmtEdge s.macros link (gcVal s r) s.uniqueGroupCounter
                  isConj src] := by
            unfold edgesAt appendEdgeAt
            rw [dictGet_update, if_pos rfl, hl0]
            simp [stmtEdge, hgc]
          rw [hes]
          have hcount : (r :: rest).count r = rest.count r + 1 := by
            simp [List.count_cons]
          rw [hcount, List.append_assoc]
          congr 1
        · have hes : edgesAt { s with
              vertexEdges := appendEdgeAt s.vertexEdges sink
                { dependency := .nameRef src,
                  label := resolveArrowLabel s.macros link,
                  group_id := some gid,
                  unique_group_id := some s.uniqueGroupCounter,
                  is_conjunction := isConj } } r = edgesAt s r := by
            unfold edgesAt appendEdgeAt
            rw [dictGet_update, if_neg hr]
          rw [hes]
          have hcount : (sink :: rest).count r = rest.count r := by
            simp [List.count_cons, hr]
          rw [hcount]
          rfl
      · rw [if_neg hm] at h
        exact absurd h (by simp)

theorem processSources_eff {line : Line} {link : Arrow} {isConj : Bool}
    {rhs : List String} :
    ∀ {L : List String} {s t : BuilderState},
    processSources line link isConj rhs s L = .ok t →
    t.macros = s.macros ∧
    t.vertexTypes = s.vertexTypes ∧
    t.vertexAttributes = s.vertexAttributes ∧
    t.groupCounter = s.groupCounter ∧
    t.uniqueGroupCounter = s.uniqueGroupCounter ∧
    dictKeys t.vertexEdges = dictKeys s.vertexEdges ∧
    (∀ src ∈ L, dictMem s.vertexTypes src = true) ∧
    (∀ r, edgesAt t r = edgesAt s r ++
      (L.map (fun src => List.replicate (rhs.count r)
        (stmtEdge s.macros link (gcVal s r) s.uniqueGroupCounter isConj
          src))).flatten) := by
  intro L
  induction L with
  | nil =>
    intro s t h
    simp only [processSources, Except.ok.injEq] at h
    subst h
    exact ⟨rfl, rfl, rfl, rfl, rfl, rfl, by simp, fun r => by simp⟩
  | cons src rest ih =>
    intro s t h
    rw [processSources] at h
    by_cases hty : dictMem s.vertexTypes src = true
    · rw [if_neg (by simp [hty])] at h
      cases hadd : addEdgesToSinks link isConj src s rhs with
      | error e => rw [hadd] at h; exact absurd h (by simp)
      | ok s1 =>
        rw [hadd] at h
        obtain ⟨m1, t1, a1, g1, u1, k1, e1⟩ := addEdgesToSinks_eff hadd
        obtain ⟨m2, t2, a2, g2, u2, k2, tyr2, e2⟩ := ih h
        have hgc1 : ∀ r, gcVal s1 r = gcVal s r := fun r => by
          unfold gcVal; rw [g1]
        refine ⟨m2.trans m1, t2.trans t1, a2.trans a1, g2.trans g1,
          u2.trans u1, k2.trans k1, ?_, fun r => ?_⟩
        · intro n hn
          rcases List.mem_cons.mp hn with hn | hn
          · subst hn; exact hty
          · rw [← t1]; exact tyr2 n hn
        · rw [e2 r, e1 r]
          have hf : (fun src' => List.replicate (rhs.count r)
                (stmtEdge s1.macros link (gcVal s1 r) s1.uniqueGroupCounter
                  isConj src'))
              = (fun src' => List.replicate (rhs.count r)
                (stmtEdge s.macros link (gcVal s r) s.uniqueGroupCounter
                  isConj src')) := by
            funext src'
            rw [m1, hgc1 r, u1]
          rw [hf]
          simp [List.flatten, List.append_assoc]
    · rw [if_pos (by simp [hty])] at h
      exact absurd h (by simp)

theorem incrementGroupCounters_eff :
    ∀ {sinks : List String} {s t : BuilderState},
    incrementGroupCounters s sinks = .ok t →
    t.macros = s.macros ∧
    t.vertexTypes = s.vertexTypes ∧
    t.vertexAttributes = s.vertexAttributes ∧
    t.vertexEdges = s.vertexEdges ∧
    t.uniqueGroupCounter = s.uniqueGroupCounter ∧
    dictKeys t.groupCounter = dictKeys s.groupCounter ∧
    (∀ r, gcVal t r = gcVal s r + sinks.count r) := by
  intro sinks
  induction sinks with
  | nil =>
    intro s t h
    simp only [incrementGroupCounters, Except.ok.injEq] at h
    subst h
    exact ⟨rfl, rfl, rfl, rfl, rfl, rfl, fun r => by simp⟩
  | cons r0 rest ih =>
    intro s t h
    rw [incrementGroupCounters] at h
    by_cases hm : dictMem s.groupCounter r0 = true
    · rw [if_pos hm] at h
      obtain ⟨m1, t1, a1, e1, u1, k1, g1⟩ := ih h
      have hsome : (dictGet s.groupCounter r0).isSome = true := by
        rw [← dictMem_iff_get_isSome]; exact hm
      obtain ⟨n0, hn0⟩ := Option.isSome_iff_exists.mp hsome
      refine ⟨m1, t1, a1, e1, u1,
        k1.trans (by simp [dictKeys_update]), fun r => ?_⟩
      rw [g1 r]
      by_cases hr : r = r0
      · subst hr
        have : gcVal { s with
            groupCounter := dictUpdate s.groupCounter r (fun n => n + 1) } r
            = gcVal s r + 1 := by
          unfold gcVal
          rw [dictGet_update, if_pos rfl, hn0]
          rfl
        rw [this]
        have hcount : (r :: rest).count r = rest.count r + 1 := by
          simp [List.count_cons]
        rw [hcount]
        omega
      · have : gcVal { s with
            groupCounter := dictUpdate s.groupCounter r0 (fun n => n + 1) } r
            = gcVal s r := by
          unfold gcVal
          rw [dictGet_update, if_neg hr]
        rw [this]
        have hcount : (r0 :: rest).count r = rest.count r := by
          simp [List.count_cons, hr]
        rw [hcount]
    · rw [if_neg hm] at h
      exact absurd h (by simp)

theorem processSetAttributes_eff {line : Line} {key value : String} :
    ∀ {vl : List String} {s t : BuilderState},
    processSetAttributes line key value s vl = .ok t →
    t.macros = s.macros ∧
    t.vertexTypes = s.vertexTypes ∧
    t.vertexEdges = s.vertexEdges ∧
    t.groupCounter = s.groupCounter ∧
    t.uniqueGroupCounter = s.uniqueGroupCounter ∧
    (∀ n ∈ vl, dictMem s.vertexTypes n = true) := by
  intro vl
  induction vl with
  | nil =>
    intro s t h
    simp only [processSetAttributes, Except.ok.injEq] at h
    subst h
    exact ⟨rfl, rfl, rfl, rfl, rfl, by simp⟩
  | cons n0 rest ih =>
    intro s t h
    rw [processSetAttributes] at h
    by_cases hty : dictMem s.vertexTypes n0 = true
    · rw [if_neg (by simp [hty])] at h
      obtain ⟨m1, t1, e1, g1, u1, ty1⟩ := ih h
      refine ⟨m1, t1, e1, g1, u1, ?_⟩
      intro n hn
      rcases List.mem_cons.mp hn with hn | hn
      · subst hn; exact hty
      · exact ty1 n hn
    · rw [if_pos (by simp [hty])] at h
      exact absurd h (by simp)

theorem processSetEdges_eff {line : Line} {L : List String} {link : Arrow}
    {R : List String} {desc : Option String} {s t : BuilderState}
    (h : processSetEdges line L link R desc s = .ok t) :
    t.macros = s.macros ∧
    t.vertexTypes = s.vertexTypes ∧
    t.uniqueGroupCounter = s.uniqueGroupCounter + 1 ∧
    (∀ r, gcVal t r = gcVal s r + R.count r) ∧
    (∀ src ∈ L, dictMem s.vertexTypes src = true) ∧
    (∀ r ∈ R, dictMem s.vertexTypes r = true) ∧
    (∀ r, edgesAt t r = edgesAt s r ++
      (L.map (fun src => List.replicate (R.count r)
        (stmtEdge s.macros link (gcVal s r) s.uniqueGroupCounter
          (decide (1 < L.length)) src))).flatten) := by
  rw [processSetEdges] at h
  cases hinit : initRhs line desc s R with
  | error e => rw [hinit] at h; exact absurd h (by simp)
  | ok s1 =>
    rw [hinit] at h
    dsimp only [] at h
    cases hsrc : processSources line link (decide (1 < L.length)) R s1 L with
    | error e => rw [hsrc] at h; exact absurd h (by simp)
    | ok s2 =>
      rw [hsrc] at h
      dsimp only [] at h
      obtain ⟨m1, t1, u1, e1, g1, _, _, _, _, tyR1⟩ := initRhs_eff hinit
      obtain ⟨m2, t2, a2, g2, u2, k2, tyL2, e2⟩ := processSources_eff hsrc
      obtain ⟨m3, t3, a3, e3, u3, k3, g3⟩ := incrementGroupCounters_eff h
      have hs3gc : ∀ r, gcVal { s2 with
          uniqueGroupCounter := s2.uniqueGroupCounter + 1 } r = gcVal s2 r :=
        fun r => rfl
      refine ⟨?_, ?_, ?_, ?_, ?_, ?_, ?_⟩
      · rw [m3]; dsimp only []; rw [m2, m1]
      · rw [t3]; dsimp only []; rw [t2, t1]
      · rw [u3]; dsimp only []; rw [u2, u1]
      · intro r
        rw [g3 r, hs3gc r]
        have h21 : gcVal s2 r = gcVal s1 r := by
          unfold gcVal; rw [g2]
        rw [h21, g1 r]
      · intro src hsrcmem
        rw [← t1]; exact tyL2 src hsrcmem
      · exact tyR1
      · intro r
        have he3 : edgesAt t r = edgesAt s2 r := by
          unfold edgesAt; rw [e3]
        rw [he3, e2 r, e1 r]
        have hf : (fun src => List.replicate (R.count r)
              (stmtEdge s1.macros link (gcVal s1 r) s1.uniqueGroupCounter
                (decide (1 < L.length)) src))
            = (fun src => List.replicate (R.count r)
              (stmtEdge s.macros link (gcVal s r) s.uniqueGroupCounter
                (decide (1 < L.length)) src)) := by
          funext src
          rw [m1, g1 r, u1]
        rw [hf]

theorem setTypesAll_mem_mono {ty : String} :
    ∀ {ns : List String} {vt : List (String × String)} {n : String},
    dictMem vt n = true → dictMem (setTypesAll vt ty ns) n = true := by
  intro ns
  induction ns with
  | nil => intro vt n h; exact h
  | cons n0 rest ih =>
    intro vt n h
    rw [setTypesAll]
    exact ih (dictMem_set vt n0 ty n h)

theorem processLine_setEdges {s t : BuilderState} {line : Line}
    {L : List String} {link : Arrow} {R : List String} {desc : Option String}
    (hl : line.expression = .setEdges L link R desc)
    (h : processLine s line = .ok t) :
    processSetEdges line L link R desc s = .ok t := by
  rw [processLine, hl] at h
  exact h

theorem processLine_eff {s t : BuilderState} {line : Line}
    (h : processLine s line = .ok t) :
    t.uniqueGroupCounter = s.uniqueGroupCounter
        + (if isSetEdgesLine line then 1 else 0) ∧
    (∀ r, gcVal t r = gcVal s r + (rhsOf line).count r) ∧
    (∀ n, dictMem s.vertexTypes n = true → dictMem t.vertexTypes n = true) ∧
    (∀ n ∈ refNamesOf line, dictMem t.vertexTypes n = true) ∧
    t.vertexTypes = (match line.expression with
      | .setTypes typeName vertexList =>
          setTypesAll s.vertexTypes typeName vertexList
      | _ => s.vertexTypes) := by
  rw [processLine] at h
  cases hexp : line.expression with
  | setTypes typeName vertexList =>
    rw [hexp] at h
    dsimp only [] at h
    simp only [Except.ok.injEq] at h
    subst h
    refine ⟨by simp [isSetEdgesLine, hexp], fun r => ?_,
      fun n hn => setTypesAll_mem_mono hn, ?_, rfl⟩
    · have hc : (rhsOf line).count r = 0 := by simp [rhsOf, hexp]
      rw [hc]
      rfl
    · simp [refNamesOf, hexp]
  | setEdges L link R desc =>
    rw [hexp] at h
    dsimp only [] at h
    obtain ⟨m1, t1, u1, g1, tyL, tyR, e1⟩ := processSetEdges_eff h
    refine ⟨by simp [isSetEdgesLine, hexp, u1],
      fun r => by simpa [rhsOf, hexp] using g1 r,
      fun n hn => by rw [t1]; exact hn, ?_, by rw [t1]⟩
    intro n hn
    simp only [refNamesOf, hexp] at hn
    rw [t1]
    rcases List.mem_append.mp hn with hn | hn
    · exact tyL n hn
    · exact tyR n hn
  | setAttributes key value vertexList =>
    rw [hexp] at h
    dsimp only [] at h
    obtain ⟨m1, t1, e1, g1, u1, ty1⟩ := processSetAttributes_eff h
    refine ⟨by simp [isSetEdgesLine, hexp, u1],
      fun r => by simp [rhsOf, hexp, gcVal, g1],
      fun n hn => by rw [t1]; exact hn, ?_, by rw [t1]⟩
    intro n hn
    simp only [refNamesOf, hexp] at hn
    rw [t1]
    exact ty1 n hn
  | macroDef symbol substitution =>
    rw [hexp] at h
    dsimp only [] at h
    simp only [Except.ok.injEq] at h
    subst h
    refine ⟨by simp [isSetEdgesLine, hexp], fun r => ?_,
      fun n hn => hn, by simp [refNamesOf, hexp], by simp [hexp]⟩
    have hc : (rhsOf line).count r = 0 := by simp [rhsOf, hexp]
    rw [hc]
    rfl

theorem processLine_inv {s t : BuilderState} {line : Line}
    (h : processLine s line = .ok t) (hinv : stateInv s) : stateInv t := by
  rw [processLine] at h
  cases hexp : line.expression with
  | setTypes typeName vertexList =>
    rw [hexp] at h
    dsimp only [] at h
    simp only [Except.ok.injEq] at h
    subst h
    exact hinv
  | setEdges L link R desc =>
    rw [hexp] at h
    dsimp only [] at h
    obtain ⟨m1, t1, u1, g1, tyL, tyR, e1⟩ := processSetEdges_eff h
    intro r e he
    rw [e1 r] at he
    rcases List.mem_append.mp he with he | he
    · obtain ⟨⟨u, hu, hult⟩, ⟨gv, hgv, hgvlt⟩, hdep⟩ := hinv r e he
      refine ⟨⟨u, hu, ?_⟩, ⟨gv, hgv, ?_⟩, hdep⟩
      · rw [u1]; omega
      · rw [g1 r]; omega
    · obtain ⟨es, hes, hees⟩ := List.mem_flatten.mp he
      obtain ⟨src, hsrc, hsrceq⟩ := List.mem_map.mp hes
      rw [← hsrceq] at hees
      obtain ⟨hcnt, heq⟩ := List.mem_replicate.mp hees
      subst heq
      refine ⟨⟨s.uniqueGroupCounter, rfl, by rw [u1]; omega⟩,
        ⟨gcVal s r, rfl, ?_⟩, ⟨src, rfl⟩⟩
      rw [g1 r]
      have : 0 < R.count r := Nat.pos_of_ne_zero hcnt
      omega
  | setAttributes key value vertexList =>
    rw [hexp] at h
    dsimp only [] at h
    obtain ⟨m1, t1, e1, g1, u1, ty1⟩ := processSetAttributes_eff h
    intro r e he
    have he' : e ∈ edgesAt s r := by
      unfold edgesAt at he ⊢; rw [e1] at he; exact he
    obtain ⟨⟨u, hu, hult⟩, ⟨gv, hgv, hgvlt⟩, hdep⟩ := hinv r e he'
    refine ⟨⟨u, hu, by rw [u1]; exact hult⟩,
      ⟨gv, hgv, ?_⟩, hdep⟩
    have : gcVal t r = gcVal s r := by unfold gcVal; rw [g1]
    rw [this]; exact hgvlt
  | macroDef symbol substitution =>
    rw [hexp] at h
    dsimp only [] at h
    simp only [Except.ok.injEq] at h
    subst h
    exact hinv

theorem processLines_append :
    ∀ {as : List Line} {s : BuilderState} {bs : List Line},
    processLines s (as ++ bs) =
      match processLines s as with
      | .ok m => processLines m bs
      | .error e => .error e := by
  intro as
  induction as with
  | nil => intro s bs; rfl
  | cons l rest ih =>
    intro s bs
    rw [List.cons_append, processLines, processLines]
    cases processLine s l with
    | error e => rfl
    | ok s' => exact ih

theorem processLines_stepAt {s sfin : BuilderState} {lines : List Line}
    (h : processLines s lines = .ok sfin) (i : Nat) {l : Line}
    (hi : lines[i]? = some l) :
    ∃ s1 s2, processLines s (lines.take i) = .ok s1 ∧
      processLine s1 l = .ok s2 ∧
      processLines s2 (lines.drop (i + 1)) = .ok sfin := by
  have hsplit : lines = lines.take (i + 1) ++ lines.drop (i + 1) :=
    (List.take_append_drop (i + 1) lines).symm
  have htake : lines.take (i + 1) = lines.take i ++ [l] := by
    rw [List.take_succ, hi]
    rfl
  rw [hsplit, processLines_append] at h
  cases hpre : processLines s (lines.take (i + 1)) with
  | error e => rw [hpre] at h; exact absurd h (by simp)
  | ok m =>
    rw [hpre] at h
    rw [htake, processLines_append] at hpre
    cases hpre2 : processLines s (lines.take i) with
    | error e => rw [hpre2] at hpre; exact absurd hpre (by simp)
    | ok s1 =>
      rw [hpre2] at hpre
      dsimp only [] at hpre
      rw [processLines] at hpre
      cases hline : processLine s1 l with
      | error e => rw [hline] at hpre; exact absurd hpre (by simp)
      | ok s2 =>
        rw [hline] at hpre
        dsimp only [] at hpre
        rw [processLines] at hpre
        simp only [Except.ok.injEq] at hpre
        exact ⟨s1, s2, rfl, hline, by rw [hpre]; exact h⟩

theorem processLines_uid :
    ∀ {ls : List Line} {s t : BuilderState}, processLines s ls = .ok t →
    t.uniqueGroupCounter = s.uniqueGroupCounter + countSE ls := by
  intro ls
  induction ls with
  | nil =>
    intro s t h
    simp only [processLines, Except.ok.injEq] at h
    subst h
    simp [countSE]
  | cons l rest ih =>
    intro s t h
    rw [processLines] at h
    cases hline : processLine s l with
    | error e => rw [hline] at h; exact absurd h (by simp)
    | ok s1 =>
      rw [hline] at h
      dsimp only [] at h
      obtain ⟨hu, _, _, _, _⟩ := processLine_eff hline
      rw [ih h, hu]
      have hcse : countSE (l :: rest) =
          (if isSetEdgesLine l then 1 else 0) + countSE rest := by
        by_cases hse : isSetEdgesLine l = true
        · simp only [countSE, List.filter_cons, if_pos hse, List.length_cons]
          omega
        · simp only [countSE, List.filter_cons, if_neg hse]
          omega
      rw [hcse]
      omega

theorem processLines_gc :
    ∀ {ls : List Line} {s t : BuilderState}, processLines s ls = .ok t →
    ∀ r, gcVal t r = gcVal s r + rhsOcc ls r := by
  intro ls
  induction ls with
  | nil =>
    intro s t h r
    simp only [processLines, Except.ok.injEq] at h
    subst h
    simp [rhsOcc]
  | cons l rest ih =>
    intro s t h r
    rw [processLines] at h
    cases hline : processLine s l with
    | error e => rw [hline] at h; exact absurd h (by simp)
    | ok s1 =>
      rw [hline] at h
      dsimp only [] at h
      obtain ⟨_, hg, _, _, _⟩ := processLine_eff hline
      rw [ih h r, hg r]
      have : rhsOcc (l :: rest) r = (rhsOf l).count r + rhsOcc rest r := by
        simp [rhsOcc]
      rw [this]
      omega

theorem processLines_types_mono :
    ∀ {ls : List Line} {s t : BuilderState}, processLines s ls = .ok t →
    ∀ n, dictMem s.vertexTypes n = true → dictMem t.vertexTypes n = true := by
  intro ls
  induction ls with
  | nil =>
    intro s t h n hn
    simp only [processLines, Except.ok.injEq] at h
    subst h
    exact hn
  | cons l rest ih =>
    intro s t h n hn
    rw [processLines] at h
    cases hline : processLine s l with
    | error e => rw [hline] at h; exact absurd h (by simp)
    | ok s1 =>
      rw [hline] at h
      dsimp only [] at h
      obtain ⟨_, _, hmono, _, _⟩ := processLine_eff hline
      exact ih h n (hmono n hn)

theorem processLines_refnames :
    ∀ {ls : List Line} {s t : BuilderState}, processLines s ls = .ok t →
    ∀ n ∈ edgeOrAttrNames ls, dictMem t.vertexTypes n = true := by
  intro ls
  induction ls with
  | nil =>
    intro s t h n hn
    simp [edgeOrAttrNames] at hn
  | cons l rest ih =>
    intro s t h n hn
    rw [processLines] at h
    cases hline : processLine s l with
    | error e => rw [hline] at h; exact absurd h (by simp)
    | ok s1 =>
      rw [hline] at h
      dsimp only [] at h
      rw [edgeOrAttrNames] at hn
      rcases List.mem_append.mp hn with hn | hn
      · obtain ⟨_, _, _, href, _⟩ := processLine_eff hline
        exact processLines_types_mono h n (href n hn)
      · exact ih h n hn

theorem processLines_typesTable :
    ∀ {ls : List Line} {s t : BuilderState}, processLines s ls = .ok t →
    t.vertexTypes = ls.foldl
      (fun vt l =>
        match l.expression with
        | .setTypes typeName vertexList => setTypesAll vt typeName vertexList
        | _ => vt) s.vertexTypes := by
  intro ls
  induction ls with
  | nil =>
    intro s t h
    simp only [processLines, Except.ok.injEq] at h
    subst h
    rfl
  | cons l rest ih =>
    intro s t h
    rw [processLines] at h
    cases hline : processLine s l with
    | error e => rw [hline] at h; exact absurd h (by simp)
    | ok s1 =>
      rw [hline] at h
      dsimp only [] at h
      obtain ⟨_, _, _, _, hty⟩ := processLine_eff hline
      rw [List.foldl_cons, ih h, ← hty]

theorem processLines_inv :
    ∀ {ls : List Line} {s t : BuilderState}, processLines s ls = .ok t →
    stateInv s → stateInv t := by
  intro ls
  induction ls with
  | nil =>
    intro s t h hinv
    simp only [processLines, Except.ok.injEq] at h
    subst h
    exact hinv
  | cons l rest ih =>
    intro s t h hinv
    rw [processLines] at h
    cases hline : processLine s l with
    | error e => rw [hline] at h; exact absurd h (by simp)
    | ok s1 =>
      rw [hline] at h
      dsimp only [] at h
      exact ih h (processLine_inv hline hinv)

theorem initialState_inv (sharedMacros : List (String × String)) :
    stateInv (initialState sharedMacros) := by
  intro r e he
  simp [edgesAt, initialState, dictGet] at he

/-! ## Simulation: the macros table influences only edge labels -/

theorem eraseTbl_keys (t : List (String × List VertexEdge)) :
    dictKeys (eraseTbl t) = dictKeys t := by
  induction t with
  | nil => rfl
  | cons p rest ih =>
    simp only [eraseTbl, dictKeys, List.map_cons] at *
    rw [ih]

theorem eraseTbl_get (t : List (String × List VertexEdge)) (r : String) :
    dictGet (eraseTbl t) r =
      (dictGet t r).map (fun es => es.map eraseEdgeLabel) := by
  induction t with
  | nil => rfl
  | cons p rest ih =>
    by_cases hpr : p.1 = r
    · simp [eraseTbl, dictGet, hpr]
    · have hb : (p.1 == r) = false := by simp [hpr]
      simp only [eraseTbl, List.map_cons, dictGet, hb, Bool.false_eq_true,
        if_false]
      simp only [eraseTbl] at ih
      exact ih

theorem eraseTbl_append_commute (ve : List (String × List VertexEdge))
    (sink : String) (e : VertexEdge) :
    eraseTbl (appendEdgeAt ve sink e) =
      appendEdgeAt (eraseTbl ve) sink (eraseEdgeLabel e) := by
  induction ve with
  | nil => rfl
  | cons p rest ih =>
    by_cases hps : p.1 = sink
    · simp [appendEdgeAt, dictUpdate, eraseTbl, hps]
    · simp [appendEdgeAt, dictUpdate, eraseTbl, hps] at *
      exact ih

theorem eraseTbl_append_entry (ve : List (String × List VertexEdge))
    (r0 : String) :
    eraseTbl (ve ++ [(r0, [])]) = eraseTbl ve ++ [(r0, [])] := by
  simp [eraseTbl]

theorem simRel_ve_mem {s s' : BuilderState} (hrel : simRel s s') (r : String) :
    dictMem s.vertexEdges r = dictMem s'.vertexEdges r := by
  obtain ⟨_, _, he, _, _⟩ := hrel
  have hk : dictKeys s.vertexEdges = dictKeys s'.vertexEdges := by
    rw [← eraseTbl_keys s.vertexEdges, ← eraseTbl_keys s'.vertexEdges, he]
  exact dictMem_congr_keys hk r

theorem initRhsStep_ok_form {line : Line} {desc : Option String}
    {s : BuilderState} {r0 : String}
    (htym : dictMem s.vertexTypes r0 = true) :
    initRhsStep line desc s r0 = .ok
      { macros := s.macros,
        vertexTypes := s.vertexTypes,
        vertexAttributes :=
          (match desc with
           | some d => assignVertexAttribute s.vertexAttributes r0
               "description" d
           | none => s.vertexAttributes),
        vertexEdges :=
          (if dictMem s.vertexEdges r0 = true then s.vertexEdges
           else s.vertexEdges ++ [(r0, [])]),
        groupCounter :=
          (if dictMem s.groupCounter r0 = true then s.groupCounter
           else s.groupCounter ++ [(r0, 0)]),
        uniqueGroupCounter := s.uniqueGroupCounter } := by
  rw [initRhsStep.eq_def, if_neg (by simp [htym])]
  cases desc with
  | none =>
    dsimp only []
    by_cases hm2 : dictMem s.vertexEdges r0 = true <;>
      by_cases hm3 : dictMem s.groupCounter r0 = true <;>
        simp [hm2, hm3]
  | some d =>
    dsimp only []
    by_cases hm2 : dictMem s.vertexEdges r0 = true <;>
      by_cases hm3 : dictMem s.groupCounter r0 = true <;>
        simp [hm2, hm3]

theorem initRhsStep_sim {line : Line} {desc : Option String}
    {s s' t : BuilderState} {r0 : String} (hrel : simRel s s')
    (h : initRhsStep line desc s r0 = .ok t) :
    ∃ t', initRhsStep line desc s' r0 = .ok t' ∧ simRel t t' := by
  obtain ⟨hty, hattr, hedge, hgc, huid⟩ := hrel
  by_cases htym : dictMem s.vertexTypes r0 = true
  · have htym' : dictMem s'.vertexTypes r0 = true := by rw [← hty]; exact htym
    rw [initRhsStep_ok_form htym] at h
    simp only [Except.ok.injEq] at h
    subst h
    have hvem : dictMem s.vertexEdges r0 = dictMem s'.vertexEdges r0 :=
      simRel_ve_mem ⟨hty, hattr, hedge, hgc, huid⟩ r0
    refine ⟨_, initRhsStep_ok_form htym', ⟨hty, ?_, ?_, ?_, huid⟩⟩
    · show (match desc with
        | some d => assignVertexAttribute s.vertexAttributes r0
            "description" d
        | none => s.vertexAttributes) =
        (match desc with
        | some d => assignVertexAttribute s'.vertexAttributes r0
            "description" d
        | none => s'.vertexAttributes)
      cases desc with
      | none => exact hattr
      | some d => rw [hattr]
    · show eraseTbl (if dictMem s.vertexEdges r0 = true then s.vertexEdges
          else s.vertexEdges ++ [(r0, [])]) =
        eraseTbl (if dictMem s'.vertexEdges r0 = true then s'.vertexEdges
          else s'.vertexEdges ++ [(r0, [])])
      by_cases hm2 : dictMem s.vertexEdges r0 = true
      · have hm2' : dictMem s'.vertexEdges r0 = true := by
          rw [← hvem]; exact hm2
        rw [if_pos hm2, if_pos hm2']
        exact hedge
      · have hm2' : ¬(dictMem s'.vertexEdges r0 = true) := by
          rw [← hvem]; exact hm2
        rw [if_neg hm2, if_neg hm2']
        rw [eraseTbl_append_entry, eraseTbl_append_entry, hedge]
    · show (if dictMem s.groupCounter r0 = true then s.groupCounter
          else s.groupCounter ++ [(r0, 0)]) =
        (if dictMem s'.groupCounter r0 = true then s'.groupCounter
          else s'.groupCounter ++ [(r0, 0)])
      rw [hgc]
  · rw [initRhsStep.eq_def, if_pos (by simp [htym])] at h
    exact absurd h (by simp)

theorem initRhs_sim {line : Line} {desc : Option String} :
    ∀ {R : List String} {s s' t : BuilderState}, simRel s s' →
    initRhs line desc s R = .ok t →
    ∃ t', initRhs line desc s' R = .ok t' ∧ simRel t t' := by
  intro R
  induction R with
  | nil =>
    intro s s' t hrel h
    simp only [initRhs, Except.ok.injEq] at h
    subst h
    exact ⟨s', rfl, hrel⟩
  | cons r0 rest ih =>
    intro s s' t hrel h
    rw [initRhs] at h
    cases hstep : initRhsStep line desc s r0 with
    | error e => rw [hstep] at h; exact absurd h (by simp)
    | ok u =>
      rw [hstep] at h
      dsimp only [] at h
      obtain ⟨u', hstep', hrelu⟩ := initRhsStep_sim hrel hstep
      obtain ⟨t', hrun', hrelt⟩ := ih hrelu h
      refine ⟨t', ?_, hrelt⟩
      rw [initRhs, hstep']
      exact hrun'

theorem addEdgesToSinks_sim {link : Arrow} {isConj : Bool} {src : String} :
    ∀ {sinks : List String} {s s' t : BuilderState}, simRel s s' →
    addEdgesToSinks link isConj src s sinks = .ok t →
    ∃ t', addEdgesToSinks link isConj src s' sinks = .ok t' ∧ simRel t t' := by
  intro sinks
  induction sinks with
  | nil =>
    intro s s' t hrel h
    simp only [addEdgesToSinks, Except.ok.injEq] at h
    subst h
    exact ⟨s', rfl, hrel⟩
  | cons sink rest ih =>
    intro s s' t hrel h
    obtain ⟨hty, hattr, hedge, hgc, huid⟩ := hrel
    rw [addEdgesToSinks] at h
    cases hg : dictGet s.groupCounter sink with
    | none => rw [hg] at h; exact absurd h (by simp)
    | some gid =>
      rw [hg] at h
      dsimp only [] at h
      by_cases hm : dictMem s.vertexEdges sink = true
      · rw [if_pos hm] at h
        have hvem := simRel_ve_mem ⟨hty, hattr, hedge, hgc, huid⟩ sink
        have hm' : dictMem s'.vertexEdges sink = true := by
          rw [← hvem]; exact hm
        have hg' : dictGet s'.groupCounter sink = some gid := by
          rw [← hgc]; exact hg
        have hrel2 : simRel
            { s with
              vertexEdges :=
                appendEdgeAt s.vertexEdges sink
                  { dependency := .nameRef src,
                    label := resolveArrowLabel s.macros link,
                    group_id := some gid,
                    unique_group_id := some s.uniqueGroupCounter,
                    is_conjunction := isConj } }
            { s' with
              vertexEdges :=
                appendEdgeAt s'.vertexEdges sink
                  { dependency := .nameRef src,
                    label := resolveArrowLabel s'.macros link,
                    group_id := some gid,
                    unique_group_id := some s'.uniqueGroupCounter,
                    is_conjunction := isConj } } := by
          refine ⟨hty, hattr, ?_, hgc, huid⟩
          show eraseTbl (appendEdgeAt s.vertexEdges sink _) =
            eraseTbl (appendEdgeAt s'.vertexEdges sink _)
          rw [eraseTbl_append_commute, eraseTbl_append_commute, hedge, huid]
          rfl
        obtain ⟨t', hrun', hrelt⟩ := ih hrel2 h
        refine ⟨t', ?_, hrelt⟩
        rw [addEdgesToSinks, hg']
        dsimp only []
        rw [if_pos hm']
        exact hrun'
      · rw [if_neg hm] at h
        exact absurd h (by simp)

theorem processSources_sim {line : Line} {link : Arrow} {isConj : Bool}
    {rhs : List String} :
    ∀ {L : List String} {s s' t : BuilderState}, simRel s s' →
    processSources line link isConj rhs s L = .ok t →
    ∃ t', processSources line link isConj rhs s' L = .ok t' ∧ simRel t t' := by
  intro L
  induction L with
  | nil =>
    intro s s' t hrel h
    simp only [processSources, Except.ok.injEq] at h
    subst h
    exact ⟨s', rfl, hrel⟩
  | cons src rest ih =>
    intro s s' t hrel h
    rw [processSources] at h
    by_cases hty : dictMem s.vertexTypes src = true
    · rw [if_neg (by simp [hty])] at h
      have hty' : dictMem s'.vertexTypes src = true := by
        rw [← hrel.1]; exact hty
      cases hadd : addEdgesToSinks link isConj src s rhs with
      | error e => rw [hadd] at h; exact absurd h (by simp)
      | ok u =>
        rw [hadd] at h
        dsimp only [] at h
        obtain ⟨u', hadd', hrelu⟩ := addEdgesToSinks_sim hrel hadd
        obtain ⟨t', hrun', hrelt⟩ := ih hrelu h
        refine ⟨t', ?_, hrelt⟩
        rw [processSources, if_neg (by simp [hty']), hadd']
        exact hrun'
    · rw [if_pos (by simp [hty])] at h
      exact absurd h (by simp)

theorem incrementGroupCounters_sim :
    ∀ {sinks : List String} {s s' t : BuilderState}, simRel s s' →
    incrementGroupCounters s sinks = .ok t →
    ∃ t', incrementGroupCounters s' sinks = .ok t' ∧ simRel t t' := by
  intro sinks
  induction sinks with
  | nil =>
    intro s s' t hrel h
    simp only [incrementGroupCounters, Except.ok.injEq] at h
    subst h
    exact ⟨s', rfl, hrel⟩
  | cons r0 rest ih =>
    intro s s' t hrel h
    obtain ⟨hty, hattr, hedge, hgc, huid⟩ := hrel
    rw [incrementGroupCounters] at h
    by_cases hm : dictMem s.groupCounter r0 = true
    · rw [if_pos hm] at h
      have hm' : dictMem s'.groupCounter r0 = true := by rw [← hgc]; exact hm
      have hrel2 : simRel
          { s with groupCounter :=
              dictUpdate s.groupCounter r0 (fun n => n + 1) }
          { s' with groupCounter :=
              dictUpdate s'.groupCounter r0 (fun n => n + 1) } := by
        refine ⟨hty, hattr, hedge, ?_, huid⟩
        show dictUpdate s.groupCounter r0 _ = dictUpdate s'.groupCounter r0 _
        rw [hgc]
      obtain ⟨t', hrun', hrelt⟩ := ih hrel2 h
      refine ⟨t', ?_, hrelt⟩
      rw [incrementGroupCounters, if_pos hm']
      exact hrun'
    · rw [if_neg hm] at h
      exact absurd h (by simp)

theorem processSetAttributes_sim {line : Line} {key value : String} :
    ∀ {vl : List String} {s s' t : BuilderState}, simRel s s' →
    processSetAttributes line key value s vl = .ok t →
    ∃ t', processSetAttributes line key value s' vl = .ok t' ∧ simRel t t' := by
  intro vl
  induction vl with
  | nil =>
    intro s s' t hrel h
    simp only [processSetAttributes, Except.ok.injEq] at h
    subst h
    exact ⟨s', rfl, hrel⟩
  | cons n0 rest ih =>
    intro s s' t hrel h
    rw [processSetAttributes] at h
    by_cases hty : dictMem s.vertexTypes n0 = true
    · rw [if_neg (by simp [hty])] at h
      have hty' : dictMem s'.vertexTypes n0 = true := by
        rw [← hrel.1]; exact hty
      have hrel2 : simRel
          { s with vertexAttributes :=
              assignVertexAttribute s.vertexAttributes n0 key value }
          { s' with vertexAttributes :=
              assignVertexAttribute s'.vertexAttributes n0 key value } := by
        refine ⟨hrel.1, ?_, hrel.2.2.1, hrel.2.2.2.1, hrel.2.2.2.2⟩
        show assignVertexAttribute s.vertexAttributes n0 key value =
          assignVertexAttribute s'.vertexAttributes n0 key value
        rw [hrel.2.1]
      obtain ⟨t', hrun', hrelt⟩ := ih hrel2 h
      refine ⟨t', ?_, hrelt⟩
      rw [processSetAttributes, if_neg (by simp [hty'])]
      exact hrun'
    · rw [if_pos (by simp [hty])] at h
      exact absurd h (by simp)

theorem processLine_sim {s s' t : BuilderState} {line : Line}
    (hrel : simRel s s') (h : processLine s line = .ok t) :
    ∃ t', processLine s' line = .ok t' ∧ simRel t t' := by
  rw [processLine] at h
  cases hexp : line.expression with
  | setTypes typeName vertexList =>
    rw [hexp] at h
    dsimp only [] at h
    simp only [Except.ok.injEq] at h
    subst h
    refine ⟨{ s' with
        vertexTypes := setTypesAll s'.vertexTypes typeName vertexList },
      by rw [processLine, hexp], ?_, hrel.2.1, hrel.2.2.1, hrel.2.2.2.1,
      hrel.2.2.2.2⟩
    show setTypesAll s.vertexTypes typeName vertexList =
      setTypesAll s'.vertexTypes typeName vertexList
    rw [hrel.1]
  | setEdges L link R desc =>
    rw [hexp] at h
    dsimp only [] at h
    rw [processSetEdges] at h
    cases hinit : initRhs line desc s R with
    | error e => rw [hinit] at h; exact absurd h (by simp)
    | ok s1 =>
      rw [hinit] at h
      dsimp only [] at h
      cases hsrc : processSources line link (decide (1 < L.length)) R s1 L with
      | error e => rw [hsrc] at h; exact absurd h (by simp)
      | ok s2 =>
        rw [hsrc] at h
        dsimp only [] at h
        obtain ⟨s1', hinit', hrel1⟩ := initRhs_sim hrel hinit
        obtain ⟨s2', hsrc', hrel2⟩ := processSources_sim hrel1 hsrc
        have hrel3 : simRel
            { s2 with uniqueGroupCounter := s2.uniqueGroupCounter + 1 }
            { s2' with uniqueGroupCounter := s2'.uniqueGroupCounter + 1 } := by
          refine ⟨hrel2.1, hrel2.2.1, hrel2.2.2.1, hrel2.2.2.2.1, ?_⟩
          show s2.uniqueGroupCounter + 1 = s2'.uniqueGroupCounter + 1
          rw [hrel2.2.2.2.2]
        obtain ⟨t', hrun', hrelt⟩ := incrementGroupCounters_sim hrel3 h
        refine ⟨t', ?_, hrelt⟩
        rw [processLine, hexp]
        dsimp only []
        rw [processSetEdges, hinit']
        dsimp only []
        rw [hsrc']
        dsimp only []
        exact hrun'
  | setAttributes key value vertexList =>
    rw [hexp] at h
    dsimp only [] at h
    obtain ⟨t', hrun', hrelt⟩ := processSetAttributes_sim hrel h
    refine ⟨t', ?_, hrelt⟩
    rw [processLine, hexp]
    exact hrun'
  | macroDef symbol substitution =>
    rw [hexp] at h
    dsimp only [] at h
    simp only [Except.ok.injEq] at h
    subst h
    exact ⟨{ s' with macros := dictSet s'.macros symbol substitution },
      by rw [processLine, hexp],
      hrel.1, hrel.2.1, hrel.2.2.1, hrel.2.2.2.1, hrel.2.2.2.2⟩

theorem processLines_sim :
    ∀ {ls : List Line} {s s' t : BuilderState}, simRel s s' →
    processLines s ls = .ok t →
    ∃ t', processLines s' ls = .ok t' ∧ simRel t t' := by
  intro ls
  induction ls with
  | nil =>
    intro s s' t hrel h
    simp only [processLines, Except.ok.injEq] at h
    subst h
    exact ⟨s', rfl, hrel⟩
  | cons l rest ih =>
    intro s s' t hrel h
    rw [processLines] at h
    cases hline : processLine s l with
    | error e => rw [hline] at h; exact absurd h (by simp)
    | ok s1 =>
      rw [hline] at h
      dsimp only [] at h
      obtain ⟨s1', hline', hrel1⟩ := processLine_sim hrel hline
      obtain ⟨t', hrun', hrelt⟩ := ih hrel1 h
      refine ⟨t', ?_, hrelt⟩
      rw [processLines, hline']
      exact hrun'

theorem initialState_sim (dm dm' : List (String × String)) :
    simRel (initialState dm) (initialState dm') :=
  ⟨rfl, rfl, rfl, rfl, rfl⟩

/-! ## Claim theorems (simple claims) -/

/-- C8: a syntactically valid document with no expressions (the parser
yields an empty AST for empty or whitespace/comment-only input) makes
`read_graph` return the distinguished empty result `none` — not a `Graph`
and not an error — whatever state the shared macros table is in. -/
theorem C8_empty_document_yields_none (sharedMacros : List (String × String)) :
    read_graph sharedMacros none = (sharedMacros, Except.ok none) := rfl

/-- C9: with `case_insensitive := true`, `Graph.has_vertex_with_name`
returns true exactly when the graph has at least one vertex, regardless of
the `vertex_name` argument (the comprehension variable shadows it); with
`case_insensitive := false` it returns true exactly when `vertex_name` is a
key of the vertices dictionary. -/
theorem C9_has_vertex_with_name_shadowing (g : Graph) (vertex_name : String) :
    Graph.has_vertex_with_name g vertex_name true
        = decide (0 < g.vertices.length) ∧
    Graph.has_vertex_with_name g vertex_name false
        = dictMem g.vertices vertex_name := by
  constructor
  · show (g.vertices.any (fun p => p.1.toLower == p.1.toLower))
        = decide (0 < g.vertices.length)
    cases g.vertices with
    | nil => rfl
    | cons p rest => simp [List.any_cons]
  · rfl

/-- C10: `Graph.add_vertex` never raises — its duplicate check compares the
`Vertex` object against the dictionary's string keys, which never matches,
so the `KeyError` branch is unreachable — and adding a vertex whose name is
already a key silently replaces the existing vertex. -/
theorem C10_add_vertex_never_raises (g : Graph) (v : Vertex) :
    Graph.add_vertex g v = .ok ⟨dictSet g.vertices v.name v⟩ ∧
    dictGet (dictSet g.vertices v.name v) v.name = some v := by
  constructor
  · show (if !(g.vertices.any (fun p => pyVertexEqKey v p.1)) then _ else _) = _
    have : (g.vertices.any (fun p => pyVertexEqKey v p.1)) = false := by
      induction g.vertices with
      | nil => rfl
      | cons p rest ih => simp [List.any_cons, pyVertexEqKey, ih]
    rw [this]
    rfl
  · exact dictGet_set_self _ _ _

/-- C3 counterexample: building the document `x -> y` (with neither vertex
declared) raises an `UndeclaredVertexError` naming `y` — not `x` as the
claim states — because the RHS vertex list is validated before the LHS. -/
theorem C3_counterexample_names_y :
    (read_graph AGTxtReader_DEFAULT_MACROS (some xyDoc)).2 =
      .error (initialState AGTxtReader_DEFAULT_MACROS,
              .missingVertex "y" (some ⟨0, 0⟩)) ∧
    "y" ≠ "x" := by
  exact ⟨rfl, by decide⟩

/-- C3 (amended): for the document `x -> y` with neither vertex declared,
the build fails with an `UndeclaredVertexError` that names `y` — the first
unresolved name encountered, since the RHS list is checked before the LHS —
and carries the 1-based source line in its description. -/
theorem C3_amended_undeclared_vertex :
    (read_graph AGTxtReader_DEFAULT_MACROS (some xyDoc)).2 =
      .error (initialState AGTxtReader_DEFAULT_MACROS,
              .missingVertex "y" (some ⟨0, 0⟩)) ∧
    missingVertexDescription "y" (some ⟨0, 0⟩) =
      "Error on line 1 (pos. 1).\ny used before declaration." := by
  exact ⟨rfl, rfl⟩

/-- C4: parsing one document does affect the result of parsing another —
the opposite of the claim, which matches the spec's intent. A macro defined
while parsing `@~:fun` is written through the `macros` alias into the
class-level `__DEFAULT_MACROS` dictionary, and a subsequent parse of an
unrelated document picks it up: the edge of `q ~> p` is labelled `"fun"`
instead of being unlabelled. -/
theorem C4_macro_state_leaks_across_parses :
    (read_graph AGTxtReader_DEFAULT_MACROS (some macroOnlyDoc)).1 =
      [("=", "rec"), ("~", "fun")] ∧
    (read_graph [("=", "rec"), ("~", "fun")] (some tildeDoc)).2 ≠
      (read_graph AGTxtReader_DEFAULT_MACROS (some tildeDoc)).2 := by
  exact ⟨rfl, by decide⟩

/-- C6 counterexample: the document `device: phone` is valid and produces a
graph containing the vertex `phone`, yet `phone` appears in no edge or
attribute statement — refuting the claim's "vice versa" direction. -/
theorem C6_counterexample_phantom_free_vertex :
    ((read_graph AGTxtReader_DEFAULT_MACROS (some typesOnlyDoc)).2 =
      .ok (some ⟨[("phone",
        { name := "phone", vertex_type := "device", edges := [],
          attributes := [] })]⟩) ∧
     dictMem (⟨[("phone",
        { name := "phone", vertex_type := "device", edges := [],
          attributes := [] })]⟩ : Graph).vertices "phone" = true) ∧
    edgeOrAttrNames typesOnlyDoc = [] := by
  exact ⟨⟨rfl, rfl⟩, rfl⟩

/-! ## Claim theorems: grouping identifiers and the conjunction flag -/

/-- C1: every edge a `set_edges` statement produces carries the one
`unique_group_id` equal to the number of `set_edges` statements before it
(so all edges of one statement share it, and distinct statements get
distinct, strictly increasing values — all edges already present carry
strictly smaller ones); its `group_id` equals the number of earlier RHS
occurrences of its sink (so edges into one sink share it within a statement
and distinct statements get distinct values per sink); and re-parsing the
same document (with whatever contents the shared macros table has by then)
succeeds and assigns the identical `group_id`/`unique_group_id` tables —
the assignment is a pure function of the statement order. -/
theorem C1_grouping_identifiers
    (dm : List (String × String)) (lines : List Line) (sfin : BuilderState)
    (hok : processLines (initialState dm) lines = .ok sfin)
    (i : Nat) (l : Line) (L : List String) (link : Arrow) (R : List String)
    (desc : Option String)
    (hi : lines[i]? = some l) (hl : l.expression = .setEdges L link R desc) :
    ∃ s1 s2, processLines (initialState dm) (lines.take i) = .ok s1 ∧
      processLine s1 l = .ok s2 ∧
      s1.uniqueGroupCounter = countSE (lines.take i) ∧
      (∀ r, gcVal s1 r = rhsOcc (lines.take i) r) ∧
      (∀ r e, e ∈ edgesAt s2 r → e ∉ edgesAt s1 r →
        e.unique_group_id = some (countSE (lines.take i)) ∧
        e.group_id = some (rhsOcc (lines.take i) r)) ∧
      (∀ r e, e ∈ edgesAt s1 r →
        (∃ u, e.unique_group_id = some u ∧ u < countSE (lines.take i)) ∧
        (∃ gv, e.group_id = some gv ∧ gv < rhsOcc (lines.take i) r)) ∧
      (∀ dm', ∃ sfin', processLines (initialState dm') lines = .ok sfin' ∧
        eraseTbl sfin'.vertexEdges = eraseTbl sfin.vertexEdges) := by
  obtain ⟨s1, s2, hpre, hstep, hdrop⟩ := processLines_stepAt hok i hi
  have huid : s1.uniqueGroupCounter = countSE (lines.take i) := by
    have := processLines_uid hpre
    simpa [initialState] using this
  have hgc : ∀ r, gcVal s1 r = rhsOcc (lines.take i) r := by
    intro r
    have := processLines_gc hpre r
    simpa [initialState, gcVal, dictGet] using this
  have hinv : stateInv s1 := processLines_inv hpre (initialState_inv dm)
  have hse := processLine_setEdges hl hstep
  obtain ⟨_, _, _, _, _, _, hedges⟩ := processSetEdges_eff hse
  refine ⟨s1, s2, hpre, hstep, huid, hgc, ?_, ?_, ?_⟩
  · intro r e hmem hnot
    rw [hedges r] at hmem
    rcases List.mem_append.mp hmem with hmem | hmem
    · exact absurd hmem hnot
    · obtain ⟨es, hes, hees⟩ := List.mem_flatten.mp hmem
      obtain ⟨src, _, hsrceq⟩ := List.mem_map.mp hes
      rw [← hsrceq] at hees
      obtain ⟨_, heq⟩ := List.mem_replicate.mp hees
      subst heq
      exact ⟨by rw [← huid]; rfl, by rw [← hgc r]; rfl⟩
  · intro r e hmem
    obtain ⟨⟨u, hu, hult⟩, ⟨gv, hgv, hgvlt⟩, _⟩ := hinv r e hmem
    exact ⟨⟨u, hu, by rw [← huid]; exact hult⟩,
      ⟨gv, hgv, by rw [← hgc r]; exact hgvlt⟩⟩
  · intro dm'
    obtain ⟨sfin', hrun', hrel⟩ :=
      processLines_sim (initialState_sim dm dm') hok
    exact ⟨sfin', hrun', hrel.2.2.1.symm⟩

/-- C1 witness: the concrete document `password: a, b` / `device: c` /
`a, b -> c` / `a -> c`, at its second `set_edges` statement (line index 3). -/
theorem C1_grouping_identifiers_witness :
    ∃ s1 s2, processLines (initialState AGTxtReader_DEFAULT_MACROS)
        (scenario2Doc.take 3) = .ok s1 ∧
      processLine s1 ⟨.setEdges ["a"] ⟨"-", none⟩ ["c"] none, some ⟨3, 35⟩⟩
        = .ok s2 ∧
      s1.uniqueGroupCounter = countSE (scenario2Doc.take 3) ∧
      (∀ r, gcVal s1 r = rhsOcc (scenario2Doc.take 3) r) ∧
      (∀ r e, e ∈ edgesAt s2 r → e ∉ edgesAt s1 r →
        e.unique_group_id = some (countSE (scenario2Doc.take 3)) ∧
        e.group_id = some (rhsOcc (scenario2Doc.take 3) r)) ∧
      (∀ r e, e ∈ edgesAt s1 r →
        (∃ u, e.unique_group_id = some u ∧ u < countSE (scenario2Doc.take 3)) ∧
        (∃ gv, e.group_id = some gv ∧ gv < rhsOcc (scenario2Doc.take 3) r)) ∧
      (∀ dm', ∃ sfin', processLines (initialState dm') scenario2Doc
          = .ok sfin' ∧
        eraseTbl sfin'.vertexEdges = eraseTbl scenario2Final.vertexEdges) :=
  C1_grouping_identifiers AGTxtReader_DEFAULT_MACROS scenario2Doc
    scenario2Final (by decide) 3
    ⟨.setEdges ["a"] ⟨"-", none⟩ ["c"] none, some ⟨3, 35⟩⟩
    ["a"] ⟨"-", none⟩ ["c"] none (by decide) rfl

/-- C2: every edge a `set_edges` statement produces has its
`is_conjunction` flag equal to whether the statement's left-hand vertex
list has more than one element — true iff `1 < L.length`, and therefore
the same flag on every edge the statement produces. -/
theorem C2_conjunction_flag
    (dm : List (String × String)) (lines : List Line) (sfin : BuilderState)
    (hok : processLines (initialState dm) lines = .ok sfin)
    (i : Nat) (l : Line) (L : List String) (link : Arrow) (R : List String)
    (desc : Option String)
    (hi : lines[i]? = some l) (hl : l.expression = .setEdges L link R desc) :
    ∃ s1 s2, processLines (initialState dm) (lines.take i) = .ok s1 ∧
      processLine s1 l = .ok s2 ∧
      ∀ r e, e ∈ edgesAt s2 r → e ∉ edgesAt s1 r →
        e.is_conjunction = decide (1 < L.length) := by
  obtain ⟨s1, s2, hpre, hstep, hdrop⟩ := processLines_stepAt hok i hi
  have hse := processLine_setEdges hl hstep
  obtain ⟨_, _, _, _, _, _, hedges⟩ := processSetEdges_eff hse
  refine ⟨s1, s2, hpre, hstep, ?_⟩
  intro r e hmem hnot
  rw [hedges r] at hmem
  rcases List.mem_append.mp hmem with hmem | hmem
  · exact absurd hmem hnot
  · obtain ⟨es, hes, hees⟩ := List.mem_flatten.mp hmem
    obtain ⟨src, _, hsrceq⟩ := List.mem_map.mp hes
    rw [← hsrceq] at hees
    obtain ⟨_, heq⟩ := List.mem_replicate.mp hees
    subst heq
    rfl

/-- C2 witness: the statement `a, b -> c` of the concrete scenario-2
document (two LHS vertices, so every produced edge is a conjunction). -/
theorem C2_conjunction_flag_witness :
    ∃ s1 s2, processLines (initialState AGTxtReader_DEFAULT_MACROS)
        (scenario2Doc.take 2) = .ok s1 ∧
      processLine s1 ⟨.setEdges ["a", "b"] ⟨"-", none⟩ ["c"] none,
        some ⟨2, 25⟩⟩ = .ok s2 ∧
      ∀ r e, e ∈ edgesAt s2 r → e ∉ edgesAt s1 r →
        e.is_conjunction = decide (1 < (["a", "b"] : List String).length) :=
  C2_conjunction_flag AGTxtReader_DEFAULT_MACROS scenario2Doc
    scenario2Final (by decide) 2
    ⟨.setEdges ["a", "b"] ⟨"-", none⟩ ["c"] none, some ⟨2, 25⟩⟩
    ["a", "b"] ⟨"-", none⟩ ["c"] none (by decide) rfl

/-! ## Claim theorem: arrow label resolution -/

theorem all_dictSet {α : Type} (P : String → Bool) :
    ∀ (d : List (String × α)) (k : String) (v : α),
    d.all (fun p => P p.1) = true → P k = true →
    (dictSet d k v).all (fun p => P p.1) = true := by
  intro d
  induction d with
  | nil =>
    intro k v _ hk
    simp [dictSet, hk]
  | cons p rest ih =>
    intro k v hd hk
    simp only [List.all_cons, Bool.and_eq_true] at hd
    by_cases hpk : p.1 = k
    · have hb : (p.1 == k) = true := by simp [hpk]
      simp [dictSet, hb, hk, hd.2]
    · have hb : (p.1 == k) = false := by simp [hpk]
      simp [dictSet, hb, hd.1, ih k v hd.2 hk]

theorem processLine_macros {s t : BuilderState} {line : Line}
    (h : processLine s line = .ok t) :
    t.macros = (match line.expression with
      | .macroDef symbol substitution => dictSet s.macros symbol substitution
      | _ => s.macros) := by
  rw [processLine] at h
  cases hexp : line.expression with
  | setTypes typeName vertexList =>
    rw [hexp] at h
    dsimp only [] at h
    simp only [Except.ok.injEq] at h
    subst h
    rfl
  | setEdges L link R desc =>
    rw [hexp] at h
    dsimp only [] at h
    exact (processSetEdges_eff h).1
  | setAttributes key value vertexList =>
    rw [hexp] at h
    dsimp only [] at h
    exact (processSetAttributes_eff h).1
  | macroDef symbol substitution =>
    rw [hexp] at h
    dsimp only [] at h
    simp only [Except.ok.injEq] at h
    subst h
    rfl

theorem processLines_macroKeys :
    ∀ {ls : List Line} {s t : BuilderState}, processLines s ls = .ok t →
    macroKeysValid s.macros = true →
    linesMacroSymbolsValid ls = true →
    macroKeysValid t.macros = true := by
  intro ls
  induction ls with
  | nil =>
    intro s t h hm _
    simp only [processLines, Except.ok.injEq] at h
    subst h
    exact hm
  | cons l rest ih =>
    intro s t h hm hw
    simp only [linesMacroSymbolsValid, List.all_cons, Bool.and_eq_true] at hw
    rw [processLines] at h
    cases hline : processLine s l with
    | error e => rw [hline] at h; exact absurd h (by simp)
    | ok s1 =>
      rw [hline] at h
      dsimp only [] at h
      have hmac := processLine_macros hline
      have hm1 : macroKeysValid s1.macros = true := by
        rw [hmac]
        cases hexp : l.expression with
        | macroDef symbol substitution =>
          have hsym : isValidMacroSymbol symbol = true := by
            have hx := hw.1
            rw [hexp] at hx
            exact hx
          exact all_dictSet (fun k => k == "=" || isValidMacroSymbol k)
            s.macros symbol substitution hm (by simp [hsym])
        | setTypes typeName vertexList => exact hm
        | setEdges L link R desc => exact hm
        | setAttributes key value vertexList => exact hm
      exact ih h hm1 hw.2

theorem dictGet_dash_none {m : List (String × String)}
    (hm : macroKeysValid m = true) : dictGet m "-" = none := by
  induction m with
  | nil => rfl
  | cons p rest ih =>
    simp only [macroKeysValid, List.all_cons, Bool.and_eq_true] at hm
    have hp : ¬(p.1 = "-") := by
      intro hc
      rcases Bool.or_eq_true_iff.mp hm.1 with h1 | h1
      · rw [hc] at h1
        exact absurd h1 (by decide)
      · rw [hc] at h1
        exact absurd h1 (by decide)
    have hb : (p.1 == "-") = false := by simp [hp]
    simp only [dictGet, hb, Bool.false_eq_true, if_false]
    exact ih hm.2

theorem resolveArrowLabel_elif {m : List (String × String)} {link : Arrow}
    (hm : macroKeysValid m = true) :
    resolveArrowLabel m link =
      (if link.linkType = "=" then
          some (match link.label with
            | none => "rec"
            | some lb => "rec," ++ lb.replace "=" "")
        else
          match dictGet m link.linkType with
          | some sub => some sub
          | none => link.label) := by
  rw [resolveArrowLabel]
  by_cases heq : link.linkType = "="
  · have hb : (link.linkType == "=") = true := by simp [heq]
    have hbe : (link.linkType != "=") = false := by simp [heq]
    rw [if_pos heq]
    simp only [hb, hbe, if_true, Bool.and_false, Bool.false_and,
      Bool.false_eq_true, if_false]
    cases link.label <;> rfl
  · have hb : (link.linkType == "=") = false := by simp [heq]
    have hbe : (link.linkType != "=") = true := by simp [heq]
    rw [if_neg heq]
    simp only [hb, Bool.false_eq_true, if_false]
    by_cases hdash : link.linkType = "-"
    · have hbd : (link.linkType != "-") = false := by simp [hdash]
      have hget : dictGet m link.linkType = none := by
        rw [hdash]; exact dictGet_dash_none hm
      simp [hbd, hget]
    · have hbd : (link.linkType != "-") = true := by simp [hdash]
      by_cases hmem : dictMem m link.linkType = true
      · cases hget : dictGet m link.linkType with
        | none =>
          rw [dictMem_iff_get_isSome, hget] at hmem
          exact absurd hmem (by simp)
        | some sub =>
          simp [hbd, hbe, hmem, hget]
      · have hmemf : dictMem m link.linkType = false := by
          cases hb2 : dictMem m link.linkType with
          | true => exact absurd hb2 hmem
          | false => rfl
        have hget : dictGet m link.linkType = none := by
          rw [dictMem_iff_get_isSome] at hmemf
          cases hg : dictGet m link.linkType with
          | none => rfl
          | some sub => rw [hg] at hmemf; exact absurd hmemf (by simp)
        simp [hbd, hbe, hmemf, hget]

/-- C5: an edge produced by a `set_edges` statement has its label resolved
from the arrow exactly as the claim states: an `=` arrow yields `"rec"`
(or `"rec,<label>"` with every `=` stripped from the explicit label); else
an arrow whose type symbol is a key of the current macros table takes the
macro substitution; otherwise the explicit label (or no label) is used
unchanged. In particular, an `=` arrow with no explicit label yields edges
labelled `"rec"` whose `is_recovery` property is true. The hypotheses state
that the macros table and the document use grammar-valid macro symbols
(which the tatsu `SYMBOL` rule guarantees for every parsed document). -/
theorem C5_arrow_label_resolution
    (dm : List (String × String)) (lines : List Line) (sfin : BuilderState)
    (hdm : macroKeysValid dm = true)
    (hw : linesMacroSymbolsValid lines = true)
    (hok : processLines (initialState dm) lines = .ok sfin)
    (i : Nat) (l : Line) (L : List String) (link : Arrow) (R : List String)
    (desc : Option String)
    (hi : lines[i]? = some l) (hl : l.expression = .setEdges L link R desc) :
    ∃ s1 s2, processLines (initialState dm) (lines.take i) = .ok s1 ∧
      processLine s1 l = .ok s2 ∧
      (∀ r e, e ∈ edgesAt s2 r → e ∉ edgesAt s1 r →
        e.label = (if link.linkType = "=" then
            some (match link.label with
              | none => "rec"
              | some lb => "rec," ++ lb.replace "=" "")
          else
            match dictGet s1.macros link.linkType with
            | some sub => some sub
            | none => link.label)) ∧
      (link.linkType = "=" → link.label = none →
        ∀ r e, e ∈ edgesAt s2 r → e ∉ edgesAt s1 r →
          e.label = some "rec" ∧ e.is_recovery = true) := by
  obtain ⟨s1, s2, hpre, hstep, hdrop⟩ := processLines_stepAt hok i hi
  have hw1 : linesMacroSymbolsValid (lines.take i) = true := by
    simp only [linesMacroSymbolsValid, List.all_eq_true] at hw ⊢
    intro x hx
    exact hw x (List.mem_of_mem_take hx)
  have hm1 : macroKeysValid s1.macros = true :=
    processLines_macroKeys hpre (by simpa [initialState] using hdm) hw1
  have hse := processLine_setEdges hl hstep
  obtain ⟨_, _, _, _, _, _, hedges⟩ := processSetEdges_eff hse
  have hlabel : ∀ r e, e ∈ edgesAt s2 r → e ∉ edgesAt s1 r →
      e.label = resolveArrowLabel s1.macros link := by
    intro r e hmem hnot
    rw [hedges r] at hmem
    rcases List.mem_append.mp hmem with hmem | hmem
    · exact absurd hmem hnot
    · obtain ⟨es, hes, hees⟩ := List.mem_flatten.mp hmem
      obtain ⟨src, _, hsrceq⟩ := List.mem_map.mp hes
      rw [← hsrceq] at hees
      obtain ⟨_, heq⟩ := List.mem_replicate.mp hees
      subst heq
      rfl
  refine ⟨s1, s2, hpre, hstep, ?_, ?_⟩
  · intro r e hmem hnot
    rw [hlabel r e hmem hnot]
    exact resolveArrowLabel_elif hm1
  · intro heq hnone r e hmem hnot
    have h1 : e.label = some "rec" := by
      rw [hlabel r e hmem hnot, resolveArrowLabel_elif hm1, if_pos heq,
        hnone]
    refine ⟨h1, ?_⟩
    rw [VertexEdge.is_recovery, h1]
    decide

/-- C5 witness: the document `device: phone1` / `password: pin` /
`pin = > phone1` — an `=` arrow with no explicit label. -/
theorem C5_arrow_label_resolution_witness :
    ∃ s1 s2, processLines (initialState AGTxtReader_DEFAULT_MACROS)
        (recArrowDoc.take 2) = .ok s1 ∧
      processLine s1 ⟨.setEdges ["pin"] ⟨"=", none⟩ ["phone1"] none,
        some ⟨2, 30⟩⟩ = .ok s2 ∧
      (∀ r e, e ∈ edgesAt s2 r → e ∉ edgesAt s1 r →
        e.label = (if ("=" : String) = "=" then
            some (match (none : Option String) with
              | none => "rec"
              | some lb => "rec," ++ lb.replace "=" "")
          else
            match dictGet s1.macros "=" with
            | some sub => some sub
            | none => none)) ∧
      (("=" : String) = "=" → (none : Option String) = none →
        ∀ r e, e ∈ edgesAt s2 r → e ∉ edgesAt s1 r →
          e.label = some "rec" ∧ e.is_recovery = true) :=
  C5_arrow_label_resolution AGTxtReader_DEFAULT_MACROS recArrowDoc
    recArrowFinal (by decide) (by decide) (by decide) 2
    ⟨.setEdges ["pin"] ⟨"=", none⟩ ["phone1"] none, some ⟨2, 30⟩⟩
    ["pin"] ⟨"=", none⟩ ["phone1"] none (by decide) rfl

/-! ## Materialization and hydration lemmas -/

theorem buildKnownVertices_keys (s : BuilderState) :
    dictKeys (buildKnownVertices s) = dictKeys s.vertexTypes := by
  simp [buildKnownVertices, dictKeys]

theorem buildKnownVertices_entry {s : BuilderState} :
    ∀ p ∈ buildKnownVertices s, p.2.name = p.1 ∧ p.2.edges = edgesAt s p.1 := by
  intro p hp
  obtain ⟨q, _, hq⟩ := List.mem_map.mp hp
  rw [← hq]
  exact ⟨rfl, rfl⟩

theorem hydrateVertexList_keys {known : List (String × Vertex)} :
    ∀ {vs vs' : List (String × Vertex)},
    hydrateVertexList known vs = .ok vs' → dictKeys vs' = dictKeys vs := by
  intro vs
  induction vs with
  | nil =>
    intro vs' h
    simp only [hydrateVertexList, Except.ok.injEq] at h
    subst h
    rfl
  | cons p rest ih =>
    intro vs' h
    cases p with
    | mk n v =>
      rw [hydrateVertexList] at h
      cases he : hydrateEdges known v.edges with
      | error err => rw [he] at h; exact absurd h (by simp)
      | ok es =>
        rw [he] at h
        dsimp only [] at h
        cases hr : hydrateVertexList known rest with
        | error err => rw [hr] at h; exact absurd h (by simp)
        | ok rest' =>
          rw [hr] at h
          dsimp only [] at h
          simp only [Except.ok.injEq] at h
          subst h
          simp only [dictKeys, List.map_cons]
          rw [show List.map Prod.fst rest' = dictKeys rest' from rfl, ih hr]
          rfl

theorem hydrateVertexList_entries {known : List (String × Vertex)} :
    ∀ {vs vs' : List (String × Vertex)},
    hydrateVertexList known vs = .ok vs' →
    ∀ p' ∈ vs', ∃ p, p ∈ vs ∧ p'.1 = p.1 ∧ p'.2.name = p.2.name ∧
      hydrateEdges known p.2.edges = .ok p'.2.edges := by
  intro vs
  induction vs with
  | nil =>
    intro vs' h p' hp'
    simp only [hydrateVertexList, Except.ok.injEq] at h
    subst h
    simp at hp'
  | cons p rest ih =>
    intro vs' h p' hp'
    cases p with
    | mk n v =>
      rw [hydrateVertexList] at h
      cases he : hydrateEdges known v.edges with
      | error err => rw [he] at h; exact absurd h (by simp)
      | ok es =>
        rw [he] at h
        dsimp only [] at h
        cases hr : hydrateVertexList known rest with
        | error err => rw [hr] at h; exact absurd h (by simp)
        | ok rest' =>
          rw [hr] at h
          dsimp only [] at h
          simp only [Except.ok.injEq] at h
          subst h
          rcases List.mem_cons.mp hp' with hp' | hp'
          · subst hp'
            exact ⟨(n, v), List.mem_cons_self _ _, rfl, rfl, he⟩
          · obtain ⟨q, hq, h1, h2, h3⟩ := ih hr p' hp'
            exact ⟨q, List.mem_cons_of_mem _ hq, h1, h2, h3⟩

theorem hydrate_get_name {known : List (String × Vertex)} :
    ∀ {vs vs' : List (String × Vertex)},
    hydrateVertexList known vs = .ok vs' →
    ∀ n, (dictGet vs' n).map Vertex.name = (dictGet vs n).map Vertex.name := by
  intro vs
  induction vs with
  | nil =>
    intro vs' h n
    simp only [hydrateVertexList, Except.ok.injEq] at h
    subst h
    rfl
  | cons p rest ih =>
    intro vs' h n
    cases p with
    | mk k v =>
      rw [hydrateVertexList] at h
      cases he : hydrateEdges known v.edges with
      | error err => rw [he] at h; exact absurd h (by simp)
      | ok es =>
        rw [he] at h
        dsimp only [] at h
        cases hr : hydrateVertexList known rest with
        | error err => rw [hr] at h; exact absurd h (by simp)
        | ok rest' =>
          rw [hr] at h
          dsimp only [] at h
          simp only [Except.ok.injEq] at h
          subst h
          by_cases hk : k = n
          · simp [dictGet, hk]
          · simp only [dictGet, hk, Bool.false_eq_true, if_false,
              show ((k == n) = false) from by simp [hk]]
            exact ih hr n

theorem hydrateEdges_res {known : List (String × Vertex)} :
    ∀ {es es' : List VertexEdge}, hydrateEdges known es = .ok es' →
    ∀ e' ∈ es', ∃ e, e ∈ es ∧ hydrateEdge known e = .ok e' := by
  intro es
  induction es with
  | nil =>
    intro es' h e' he'
    simp only [hydrateEdges, Except.ok.injEq] at h
    subst h
    simp at he'
  | cons e rest ih =>
    intro es' h e' he'
    rw [hydrateEdges] at h
    cases h1 : hydrateEdge known e with
    | error err => rw [h1] at h; exact absurd h (by simp)
    | ok e1 =>
      rw [h1] at h
      dsimp only [] at h
      cases h2 : hydrateEdges known rest with
      | error err => rw [h2] at h; exact absurd h (by simp)
      | ok rest' =>
        rw [h2] at h
        dsimp only [] at h
        simp only [Except.ok.injEq] at h
        subst h
        rcases List.mem_cons.mp he' with he' | he'
        · subst he'
          exact ⟨e, List.mem_cons_self _ _, h1⟩
        · obtain ⟨e0, he0, he0h⟩ := ih h2 e' he'
          exact ⟨e0, List.mem_cons_of_mem _ he0, he0h⟩

theorem hydrateEdge_res {known : List (String × Vertex)} {e e' : VertexEdge}
    (h : hydrateEdge known e = .ok e')
    (hdep : ∃ n, e.dependency = .nameRef n) :
    ∃ n, e'.dependency = .vertexRef n ∧ (dictGet known n).isSome = true := by
  obtain ⟨n, hn⟩ := hdep
  rw [hydrateEdge, hn] at h
  dsimp only [] at h
  cases hget : dictGet known n with
  | none => rw [hget] at h; exact absurd h (by simp)
  | some v =>
    rw [hget] at h
    dsimp only [] at h
    simp only [Except.ok.injEq] at h
    subst h
    exact ⟨n, rfl, by rw [hget]; rfl⟩

theorem buildKnownVertices_get_name {s : BuilderState} {k : String}
    {v : Vertex} (h : dictGet (buildKnownVertices s) k = some v) :
    v.name = k := by
  have hmem := dictGet_mem h
  obtain ⟨q, _, hq⟩ := List.mem_map.mp hmem
  have h1 : q.1 = k := congrArg Prod.fst hq
  have h2 := congrArg Prod.snd hq
  simp only at h1 h2
  rw [← h2]
  exact h1

/-! ## Claim theorems: the graph's vertex set and hydrated dependencies -/

/-- C6 (amended): for every valid document, every vertex name appearing in
any edge or attribute statement appears in the resulting graph's vertex
set, and the graph's vertex set is exactly the domain of the
`vertex_types` table built from the document's `set_types` statements. (A
vertex declared by `set_types` but never referenced in any edge or
attribute statement still appears, so the claim's converse direction
fails — see the counterexample.) -/
theorem C6_vertex_set_is_types_domain
    (dm : List (String × String)) (lines : List Line) (g : Graph)
    (h : (read_graph dm (some lines)).2 = .ok (some g)) :
    dictKeys g.vertices = dictKeys (typesTableOf lines) ∧
    (∀ n ∈ edgeOrAttrNames lines, dictMem g.vertices n = true) := by
  rw [read_graph] at h
  cases hrun : processLines (initialState dm) lines with
  | error e =>
    rw [hrun] at h
    cases e
    dsimp only [] at h
    exact absurd h (by simp)
  | ok s =>
    rw [hrun] at h
    dsimp only [] at h
    cases hhyd : hydrateVertexList (buildKnownVertices s)
        (buildKnownVertices s) with
    | error e => rw [hhyd] at h; exact absurd h (by simp)
    | ok hyd =>
      rw [hhyd] at h
      dsimp only [] at h
      simp only [Except.ok.injEq, Option.some.injEq] at h
      subst h
      have hkeys : dictKeys hyd = dictKeys s.vertexTypes := by
        rw [hydrateVertexList_keys hhyd, buildKnownVertices_keys]
      have htypes : s.vertexTypes = typesTableOf lines := by
        have := processLines_typesTable hrun
        simpa [initialState, typesTableOf] using this
      constructor
      · show dictKeys hyd = dictKeys (typesTableOf lines)
        rw [hkeys, htypes]
      · intro n hn
        have hmem : dictMem s.vertexTypes n = true :=
          processLines_refnames hrun n hn
        show dictMem hyd n = true
        rw [dictMem_congr_keys hkeys]
        exact hmem

/-- C6 witness: the concrete scenario-1 document and the graph it builds. -/
theorem C6_vertex_set_is_types_domain_witness :
    dictKeys scenario1Graph.vertices
        = dictKeys (typesTableOf scenario1Doc) ∧
    (∀ n ∈ edgeOrAttrNames scenario1Doc,
        dictMem scenario1Graph.vertices n = true) :=
  C6_vertex_set_is_types_domain AGTxtReader_DEFAULT_MACROS scenario1Doc
    scenario1Graph (by decide)

/-- C7: in the graph `read_graph` returns, every edge's `dependency` is a
hydrated reference to a `Vertex` object (no longer a name string), and that
vertex is present in the graph's vertices mapping under its own name. -/
theorem C7_dependencies_hydrated
    (dm : List (String × String)) (lines : List Line) (g : Graph)
    (h : (read_graph dm (some lines)).2 = .ok (some g)) :
    ∀ p ∈ g.vertices, ∀ e ∈ p.2.edges,
      ∃ n v, e.dependency = .vertexRef n ∧
        dictGet g.vertices n = some v ∧ v.name = n := by
  rw [read_graph] at h
  cases hrun : processLines (initialState dm) lines with
  | error e =>
    rw [hrun] at h
    cases e
    dsimp only [] at h
    exact absurd h (by simp)
  | ok s =>
    rw [hrun] at h
    dsimp only [] at h
    cases hhyd : hydrateVertexList (buildKnownVertices s)
        (buildKnownVertices s) with
    | error e => rw [hhyd] at h; exact absurd h (by simp)
    | ok hyd =>
      rw [hhyd] at h
      dsimp only [] at h
      simp only [Except.ok.injEq, Option.some.injEq] at h
      subst h
      intro p' hp' e' he'
      have hinv : stateInv s := processLines_inv hrun (initialState_inv dm)
      obtain ⟨p, hp, hk, hname, hedges⟩ := hydrateVertexList_entries hhyd p' hp'
      obtain ⟨e, he, hedge⟩ := hydrateEdges_res hedges e' he'
      obtain ⟨_, hpedges⟩ := buildKnownVertices_entry p hp
      have hdep : ∃ n, e.dependency = .nameRef n := by
        rw [hpedges] at he
        exact (hinv p.1 e he).2.2
      obtain ⟨n, hvr, hsome⟩ := hydrateEdge_res hedge hdep
      obtain ⟨v0, hv0⟩ := Option.isSome_iff_exists.mp hsome
      have hname0 : v0.name = n := buildKnownVertices_get_name hv0
      have hgname := hydrate_get_name hhyd n
      rw [hv0] at hgname
      cases hv' : dictGet hyd n with
      | none => rw [hv'] at hgname; exact absurd hgname (by simp)
      | some v' =>
        rw [hv'] at hgname
        simp only [Option.map_some'] at hgname
        have : v'.name = v0.name := by
          simpa using hgname
        exact ⟨n, v', hvr, hv', by rw [this, hname0]⟩

/-- C7 witness: the concrete scenario-1 document; its one edge's dependency
is the hydrated reference to the vertex `pin`. -/
theorem C7_dependencies_hydrated_witness :
    dictMem scenario1Graph.vertices "pin" = true ∧
    (∀ p ∈ scenario1Graph.vertices, ∀ e ∈ p.2.edges,
      ∃ n v, e.dependency = .vertexRef n ∧
        dictGet scenario1Graph.vertices n = some v ∧ v.name = n) :=
  ⟨by decide,
   C7_dependencies_hydrated AGTxtReader_DEFAULT_MACROS scenario1Doc
     scenario1Graph (by decide)⟩

end AgTool
